import Mathlib

/-!
# Verification of the latency-monitor packet pipeline

Shallow embedding of the core pipeline of this repository:

* `experiments/latency-monitor/pcap_sort.py` — the Reorderer (streaming
  k-way merge of per-interface packet-line buffers);
* `experiments/latency-monitor2/library.py` — the Flow Classifier
  (`parse_flows_file`), the Dual-Capture Correlator (`parse_data`) and the
  Aggregator helpers (`get_throughput`, `calculate_stats`);
* `experiments/latency-monitor/multiflow.py` — the "other flows"
  cardinality cap;
* `experiments/multiprocess/proc_monte_carlo.py` — the cross-run
  `confidence_interval`.

Python strings stay `String`; Python floats are modelled as exact
rationals `ℚ` (numeric text fields are parsed by `pyFloat` below, which
covers the plain decimal notation produced by tshark); Python dicts are
modelled as insertion-ordered association lists.  Code that can raise an
exception is modelled in `Option` (`none` = uncaught exception).
-/

set_option maxRecDepth 4000

namespace LatMon

/-! ## Python-style numeric parsing

`pyFloat` models `float(s)` on the plain decimal strings that occur in
tshark field dumps: an optional leading `-`, digits, an optional `.` and
more digits.  Scientific notation, `inf`/`nan` and surrounding whitespace
are not needed by any development below and parse to `none`.  `none`
models `float` raising `ValueError`. -/

/-- Value of a list of decimal digit characters; `none` if a non-digit occurs. -/
def digitsVal (cs : List Char) : Option ℕ :=
  cs.foldl
    (fun acc c =>
      match acc with
      | none => none
      | some n => if c.isDigit then some (n * 10 + (c.toNat - '0'.toNat)) else none)
    (some 0)

/-- Split a character list at the first `'.'` (the tail is `none` when no dot occurs). -/
def splitDot : List Char → List Char × Option (List Char)
  | [] => ([], none)
  | c :: t =>
    if c = '.' then ([], some t)
    else
      let p := splitDot t
      (c :: p.1, p.2)

/-- Model of Python `float()` on plain decimal strings, as an exact rational.
(The value is built with a single `mkRat` because the `ℚ` field operations
are `@[irreducible]` in this toolchain and would block kernel evaluation;
`mkRat n d` is provably `(n : ℚ) / d`.) -/
def pyFloat (s : String) : Option ℚ :=
  let cs := s.toList
  let signed : Bool × List Char :=
    match cs with
    | '-' :: t => (true, t)
    | _ => (false, cs)
  let p := splitDot signed.2
  match p.2 with
  | none =>
    match p.1, digitsVal p.1 with
    | _ :: _, some n => some (mkRat (if signed.1 then -(n : ℤ) else (n : ℤ)) 1)
    | _, _ => none
  | some frac =>
    -- at least one digit must be present on one of the two sides
    if p.1 = [] ∧ frac = [] then none
    else
      match digitsVal p.1, digitsVal frac with
      | some n, some f =>
        let num : ℤ := n * 10 ^ frac.length + f
        some (mkRat (if signed.1 then -num else num) (10 ^ frac.length))
      | _, _ => none

/-! ## The Reorderer (`pcap_sort.py`)

Input lines are whitespace-tokenized in the source (`x = line.split()`);
here a line is its token list `List String`.  The per-interface buffers
`if_buffer` are an insertion-ordered association list.  The code only
ever touches `x[0]` (via `float`, lazily at merge time) and `x[1]` (the
interface name); all other fields ride along opaquely. -/

/-- A whitespace-tokenized input line (`x = line.split()`). -/
abbrev PLine := List String

/-- The `if_buffer` dict: interface name → FIFO of buffered lines. -/
abbrev Buf := List (String × List PLine)

/-- `if_buffer[ifname].append(x)` with dynamic interface discovery
(`except KeyError: if_buffer[ifname] = [x]`). -/
def bufAppend (b : Buf) (ifn : String) (r : PLine) : Buf :=
  match b with
  | [] => [(ifn, [r])]
  | (n, rs) :: t => if n = ifn then (n, rs ++ [r]) :: t else (n, rs) :: bufAppend t ifn r

/-- `dataReady`: every currently-known interface's FIFO is non-empty. -/
def allNonempty (b : Buf) : Bool := b.all (fun p => !p.2.isEmpty)

/-- `dataRemaining`: some FIFO is non-empty. -/
def anyNonempty (b : Buf) : Bool := b.any (fun p => !p.2.isEmpty)

/-- Timestamp of a line: `float(x[0])`. -/
def headTs (r : PLine) : Option ℚ := r.head?.bind pyFloat

/-- The head-scan of `outputs`: find the buffer whose head has the lowest
timestamp (strict `<`, so the first interface in discovery order wins
ties).  `none` models `float()` raising on an unparsable head.  The
result is `some none` when no FIFO is non-empty. -/
def scanMin : Buf → Option (String × ℚ) → Option (Option (String × ℚ))
  | [], acc => some acc
  | (n, rs) :: t, acc =>
    match rs with
    | [] => scanMin t acc
    | r :: _ =>
      match headTs r with
      | none => none
      | some q =>
        scanMin t
          (match acc with
           | none => some (n, q)
           | some p => if q < p.2 then some (n, q) else some p)

/-- `if_buffer[n].pop(0)`: remove and return the head of buffer `n`. -/
def popHead : Buf → String → Buf × Option PLine
  | [], _ => ([], none)
  | (m, rs) :: t, n =>
    if m = n then
      match rs with
      | [] => ((m, rs) :: t, none)
      | r :: rs' => ((m, rs') :: t, some r)
    else
      let p := popHead t n
      ((m, rs) :: p.1, p.2)

/-- The `while` condition of `outputs`:
`(doneReading and dataRemaining) or dataReady`. -/
def outputsCond (done : Bool) (b : Buf) : Bool :=
  (done && anyNonempty b) || allNonempty b

/-- Total number of buffered lines. -/
def bufCount (b : Buf) : ℕ := (b.map (fun p => p.2.length)).sum

/-- The loop body of `outputs`, with explicit fuel (each iteration pops
exactly one line, so `bufCount b + 1` fuel always suffices;
see `outputsFuel_enough`).  `none` models an uncaught exception:
`float()` failing on a buffer head, or the `if_buffer['']` `KeyError`
hit when the loop is entered with every FIFO empty. -/
def outputsFuel : ℕ → Bool → Buf → Option (Buf × List PLine)
  | 0, _, _ => none
  | fuel + 1, done, b =>
    if outputsCond done b then
      match scanMin b none with
      | none => none
      | some none => none
      | some (some p) =>
        match popHead b p.1 with
        | (_, none) => none
        | (b', some r) =>
          match outputsFuel fuel done b' with
          | none => none
          | some q => some (q.1, r :: q.2)
    else some (b, [])

/-- `outputs(doneReading)`: returns the updated buffers and the lines
printed to stdout, in order. -/
def outputs (done : Bool) (b : Buf) : Option (Buf × List PLine) :=
  outputsFuel (bufCount b + 1) done b

/-- Per-line handling of the reading loop: blank-line skip (`if x:`) and
buffering under `x[1]`.  `none` models the uncaught `IndexError` raised
by `x[1]` when a non-blank line has fewer than two fields.  No field
count is ever checked here. -/
def readLine (b : Buf) (l : PLine) : Option Buf :=
  if l.isEmpty then some b
  else
    match l.get? 1 with
    | none => none
    | some ifn => some (bufAppend b ifn l)

/-- The stdin reading loop of `pcap_sort.py`: `linecount` bookkeeping,
per-line buffering (`readLine`), and the post-warm-up `outputs(False)`
calls (`if linecount > 1000`). -/
def readLoop : ℕ → Buf → List PLine → Option (Buf × List PLine)
  | _, b, [] => some (b, [])
  | lc, b, l :: ls =>
    let lc' := lc + 1
    match readLine b l with
    | none => none
    | some b' =>
      if lc' > 1000 then
        match outputs false b' with
        | none => none
        | some p =>
          match readLoop lc' p.1 ls with
          | none => none
          | some q => some (q.1, p.2 ++ q.2)
      else readLoop lc' b' ls

/-- The whole `pcap_sort.py` program: read stdin, then
`if len(if_buffer)>0: outputs(True)`.  Returns the full stdout line
sequence, or `none` if an exception was raised. -/
def pcapSort (input : List PLine) : Option (List PLine) :=
  match readLoop 0 [] input with
  | none => none
  | some (b, out) =>
    if b.isEmpty then some out
    else
      match outputs true b with
      | none => none
      | some p => some (out ++ p.2)

/-- Timestamp of a line as a plain rational (used to state ordering;
developments below only apply it to lines whose timestamp parses). -/
def tsOf (r : PLine) : ℚ := (headTs r).getD 0

/-- Non-decreasing timestamp order on lines. -/
def tsLe (a b : PLine) : Prop := tsOf a ≤ tsOf b

instance : DecidableRel tsLe := fun a b => inferInstanceAs (Decidable (tsOf a ≤ tsOf b))

/-- Executable check that a line sequence is non-decreasing in timestamp. -/
def sortedB : List PLine → Bool
  | [] => true
  | [_] => true
  | a :: b :: t => decide (tsOf a ≤ tsOf b) && sortedB (b :: t)

/-- Executable check that, for every interface name occurring in the
input, the sub-sequence of non-blank lines carrying that name is
non-decreasing in timestamp. -/
def locallySortedB (input : List PLine) : Bool :=
  (input.filterMap (fun r => r.get? 1)).all
    (fun n => sortedB (input.filter (fun r => !r.isEmpty && r.get? 1 == some n)))

/-! ### C5: short-line handling in the Reorderer -/

/-- A full 10-field line and a 2-field line on the same interface. -/
def c5Line10 : PLine := ["1.0", "eth0", "10.0.0.1", "10.0.0.2", "6", "0", "0", "17", "100", "04d2162e"]

/-- A line with only 2 fields (timestamp and interface name). -/
def c5Line2 : PLine := ["2.0", "eth0"]

/-! ### C6: the warm-up caveat of the Reorderer

Blank lines advance `linecount` without entering any buffer, so an input
of 1000 blank lines followed by one record on interface `a` and then one
earlier-stamped record on interface `b` makes the post-warm-up drain emit
the `a` record before interface `b` has ever been seen — exactly the
"first record arrives after WARMUP_LINES" caveat. Each interface's own
sub-sequence (one record each) is trivially non-decreasing, yet the
output is not sorted. -/

/-- 1000 blank lines, then `a`-record at t=1, then `b`-record at t=0. -/
def c6Input : List PLine :=
  (List.range 1000).map (fun _ => []) ++ [["1", "a"], ["0", "b"]]

/-! ### Invariant infrastructure for the Reorderer proofs -/

/-- Contents of buffer `m` (first entry with that key; `[]` if absent). -/
def entOf : Buf → String → List PLine
  | [], _ => []
  | (m, rs) :: t, n => if m = n then rs else entOf t n

/-- All buffered lines, in buffer order. -/
def bufRecs (b : Buf) : List PLine := (b.map (fun p => p.2)).flatten

/-- Every buffered line's timestamp parses. -/
def BufWf (b : Buf) : Prop := ∀ p ∈ b, ∀ r ∈ p.2, (headTs r).isSome

/-- Every buffer is non-decreasing in timestamp. -/
def BufSorted (b : Buf) : Prop := ∀ p ∈ b, p.2.Pairwise tsLe

@[simp] lemma bufRecs_nil : bufRecs [] = [] := rfl

@[simp] lemma bufRecs_cons (p : String × List PLine) (t : Buf) :
    bufRecs (p :: t) = p.2 ++ bufRecs t := rfl

/-- The non-blank lines of an input (blank lines are never buffered). -/
def nbRecs (I : List PLine) : List PLine := I.filter (fun r => !r.isEmpty)

/-- The non-blank lines of `I` that carry interface name `m` in field 1:
one interface's own sub-sequence of the input. -/
def recsOf (I : List PLine) (m : String) : List PLine :=
  I.filter (fun r => !r.isEmpty && r.get? 1 == some m)

/-- Reorderer loop invariant, relating the consumed input `P`, the lines
emitted so far `E` and the buffer map `b` (`I` is the whole input). -/
structure RLInv (I P E : List PLine) (b : Buf) : Prop where
  nodup : (b.map Prod.fst).Nodup
  keys : ∀ m, m ∈ b.map Prod.fst ↔ ∃ r ∈ P, r ≠ [] ∧ r.get? 1 = some m
  ent : ∀ m, ∃ Em, recsOf P m = Em ++ entOf b m
  perm : (E ++ bufRecs b).Perm (nbRecs P)
  esort : E.Pairwise tsLe
  elob : ∀ x ∈ E, ∀ y ∈ bufRecs b, tsOf x ≤ tsOf y
  elof : ∀ x ∈ E, ∀ r' ∈ nbRecs (I.drop P.length), tsOf x ≤ tsOf r'

/-- Well-formedness hypotheses on the whole Reorderer input. -/
def InWf (I : List PLine) : Prop :=
  ∀ r ∈ I, r ≠ [] → 2 ≤ r.length ∧ (headTs r).isSome

/-- Each interface's own sub-sequence of the input is non-decreasing. -/
def InLocSorted (I : List PLine) : Prop :=
  ∀ m ∈ I.filterMap (fun r => r.get? 1), (recsOf I m).Pairwise tsLe

/-- Every interface is seen within the first 1001 lines (before the first
post-warm-up drain can run). -/
def InEarly (I : List PLine) : Prop :=
  ∀ r ∈ I, r ≠ [] → ∃ r' ∈ I.take 1001, r' ≠ [] ∧ r'.get? 1 = r.get? 1

/-- If warm-up elapses at all, some record arrived during it (otherwise
the drain is entered with an empty buffer map and raises `KeyError`). -/
def InNonempty (I : List PLine) : Prop :=
  1001 ≤ I.length → ∃ r ∈ I.take 1001, r ≠ []

/-- A small concrete Reorderer input for the `C6_theorem` witness. -/
def c6wInput : List PLine :=
  [["0.2", "b", "1", "1", "6", "0", "0", "7", "100", "aa"],
   ["0.1", "a", "1", "1", "6", "0", "0", "8", "100", "bb"],
   ["0.3", "a", "1", "1", "6", "0", "0", "9", "100", "cc"]]

/-! ## Kernel-reducible rational arithmetic

The `ℚ` field operations are `@[irreducible]` in this toolchain, which
blocks `decide`-style evaluation of the embedded code on concrete
inputs.  The embedding therefore uses the following operations, built
from the reducible normalising constructor `mkRat`; each is proved equal
to the corresponding field operation. -/

def qadd (a b : ℚ) : ℚ := mkRat (a.num * b.den + b.num * a.den) (a.den * b.den)

def qsub (a b : ℚ) : ℚ := mkRat (a.num * b.den - b.num * a.den) (a.den * b.den)

def qmul (a b : ℚ) : ℚ := mkRat (a.num * b.num) (a.den * b.den)

def qneg (a : ℚ) : ℚ := mkRat (-a.num) a.den

/-- Division (`a / b`, and `0` when `b = 0`, as in `ℚ`). -/
def qdiv (a b : ℚ) : ℚ :=
  if 0 ≤ b.num then mkRat (a.num * b.den) (a.den * b.num.toNat)
  else mkRat (-(a.num * b.den)) (a.den * (-b.num).toNat)

/-! ## The Flow Classifier (`parse_flows_file`, library.py lines 28–140)

Packets inside a flow are the string lists `x[0:2] + x[5:9] + [packet_id]`
(timestamp, interface, DSCP, ECN, IP id, frame length, fingerprint), as
in the source. -/

/-- A classified packet record: 7 string fields. -/
abbrev Pkt := List String

/-- Hex digit value. -/
def hexDigitVal (c : Char) : Option ℕ :=
  if '0' ≤ c ∧ c ≤ '9' then some (c.toNat - '0'.toNat)
  else if 'a' ≤ c ∧ c ≤ 'f' then some (c.toNat - 'a'.toNat + 10)
  else if 'A' ≤ c ∧ c ≤ 'F' then some (c.toNat - 'A'.toNat + 10)
  else none

/-- Model of Python `int(s, 16)` on plain hex strings (`none` = ValueError,
in particular on the empty string). -/
def hexVal (s : String) : Option ℕ :=
  match s.toList with
  | [] => none
  | cs =>
    cs.foldl
      (fun acc c =>
        match acc, hexDigitVal c with
        | some a, some d => some (a * 16 + d)
        | _, _ => none)
      (some 0)

/-- Model of Python's (opaque, process-seeded) `hash` on strings.  The
source uses `hash` only as a checksum-excluded fingerprint compared for
equality, with collisions an accepted approximation, so any concrete
function is a faithful model; this is a simple rolling hash. -/
def pyHash (s : String) : ℕ :=
  s.toList.foldl (fun h c => (h * 131 + c.toNat + 1) % 1000000007) 7

/-- Python slice `s[:n]`. -/
def strTake (s : String) (n : ℕ) : String := String.mk (s.toList.take n)

/-- Python slice `s[n:]`. -/
def strDrop (s : String) (n : ℕ) : String := String.mk (s.toList.drop n)

/-- `pkt_count[k] += 1` with KeyError-init to 1. -/
def bumpCount (m : List (String × ℕ)) (k : String) : List (String × ℕ) :=
  match m with
  | [] => [(k, 1)]
  | (a, v) :: t => if a = k then (a, v + 1) :: t else (a, v) :: bumpCount t k

/-- `parsed_data[k].append(p)` with KeyError-init to `[p]`. -/
def pdAppend (m : List (String × List Pkt)) (k : String) (p : Pkt) :
    List (String × List Pkt) :=
  match m with
  | [] => [(k, [p])]
  | (a, v) :: t => if a = k then (a, v ++ [p]) :: t else (a, v) :: pdAppend t k p

/-- One line of the classifier loop (library.py lines 32–90): field-count
check, protocol naming, heuristic port recovery from the first 8 hex
characters of the last field, payload truncation to 120 characters,
checksum-excluded fingerprinting, and accumulation into
`(pkt_count, parsed_data)`.  All failure paths are `continue` (skip). -/
def classifyLine (acc : List (String × ℕ) × List (String × List Pkt)) (x : PLine) :
    List (String × ℕ) × List (String × List Pkt) :=
  if x.length < 10 then acc
  else
    let ipsrc := (x.get? 2).getD ""
    let ipdst := (x.get? 3).getD ""
    let protoNum := (x.get? 4).getD ""
    let proto :=
      if protoNum = "6" then "TCP"
      else if protoNum = "17" then "UDP"
      else if protoNum = "1" then "ICMP"
      else "UNK"
    let srcdst : Option (String × String) :=
      if proto = "ICMP" then some ("0", "0")
      else
        let ports := strTake ((x.getLast?).getD "") 8
        if ports = "" then none
        else
          match hexVal (strTake ports 4), hexVal (strDrop ports 4) with
          | some s, some d => some (toString s, toString d)
          | _, _ => none
    match srcdst with
    | none => acc
    | some (src, dst) =>
      let payload := strTake ((x.get? 9).getD "") 120
      let packet_id :=
        if proto = "TCP" then toString (pyHash (strTake payload 32 ++ strDrop payload 36))
        else if proto = "UDP" then toString (pyHash (strTake payload 12 ++ strDrop payload 16))
        else toString (pyHash payload)
      let flow_id := proto ++ " [" ++ ipsrc ++ " " ++ src ++ "] to [" ++ ipdst ++ " " ++ dst ++ "]"
      let pkt : Pkt := (x.take 2) ++ ((x.drop 5).take 4) ++ [packet_id]
      (bumpCount acc.1 flow_id, pdAppend acc.2 flow_id pkt)

/-- The classifier's reading loop over all input lines. -/
def parse_flows_lines (input : List PLine) :
    List (String × ℕ) × List (String × List Pkt) :=
  input.foldl classifyLine ([], [])

/-- Whitespace splitter on a character list (token accumulator). -/
def splitWsAux : List Char → List Char → List String
  | [], acc => if acc = [] then [] else [String.mk acc.reverse]
  | c :: t, acc =>
    if c = ' ' then
      if acc = [] then splitWsAux t []
      else String.mk acc.reverse :: splitWsAux t []
    else splitWsAux t (c :: acc)

/-- Python `s.split()`: split on whitespace runs, no empty tokens. -/
def pySplit (s : String) : List String := splitWsAux s.toList []

def getProto (flow_id : String) : String := ((pySplit flow_id).get? 0).getD ""

def getSrc (flow_id : String) : List String := ((pySplit flow_id).drop 1).take 2

def getDst (flow_id : String) : List String := (pySplit flow_id).drop 4

/-! ## NAT-half reunification (library.py lines 99–133) -/

/-- A `singleIfFlows` value: either the single interface name, or the
empty list `[]` the code assigns after a merge to mark the flow consumed. -/
inductive SIF
  | name (s : String)
  | cleared
deriving DecidableEq, Repr

/-- Python truthiness of a `singleIfFlows` value (`[]` and `""` falsy). -/
def SIF.truthy : SIF → Bool
  | SIF.name s => s ≠ ""
  | SIF.cleared => false

/-- `singleIfFlows[f]` (total: every key read is present in the source). -/
def sifGet : List (String × SIF) → String → SIF
  | [], _ => SIF.cleared
  | (k, v) :: t, f => if k = f then v else sifGet t f

/-- `singleIfFlows[f] = v` (value update; keys never change). -/
def sifSet : List (String × SIF) → String → SIF → List (String × SIF)
  | [], _, _ => []
  | (k, v) :: t, f, w => if k = f then (k, w) :: t else (k, v) :: sifSet t f w

/-- `parsed_data[f]` as an `Option` (`none` = KeyError). -/
def pdGet : List (String × List Pkt) → String → Option (List Pkt)
  | [], _ => none
  | (k, v) :: t, f => if k = f then some v else pdGet t f

/-- `parsed_data[f] = v` (update in place; a fresh key is appended,
as for a Python dict — though every key written by the join is present). -/
def pdSet : List (String × List Pkt) → String → List Pkt → List (String × List Pkt)
  | [], f, w => [(f, w)]
  | (k, v) :: t, f, w => if k = f then (k, w) :: t else (k, v) :: pdSet t f w

/-- `parsed_data.pop(f)`. -/
def pdPop : List (String × List Pkt) → String → List (String × List Pkt)
  | [], _ => []
  | (k, v) :: t, f => if k = f then t else (k, v) :: pdPop t f

/-- Lexicographic comparison of character lists by code point. -/
def strLtChars : List Char → List Char → Bool
  | [], [] => false
  | [], _ :: _ => true
  | _ :: _, [] => false
  | a :: as, b :: bs =>
    if a.toNat < b.toNat then true
    else if b.toNat < a.toNat then false
    else strLtChars as bs

/-- Python string comparison `a < b` (code-point lexicographic). -/
def pyStrLt (a b : String) : Bool := strLtChars a.toList b.toList

/-- Python list comparison `a < b` on lists of strings (lexicographic,
element-wise, shorter prefix first). -/
def pktLt : List String → List String → Bool
  | [], [] => false
  | [], _ :: _ => true
  | _ :: _, [] => false
  | a :: as, b :: bs =>
    if pyStrLt a b then true else if pyStrLt b a then false else pktLt as bs

/-- Stable insertion into a sorted list: the new (earlier) element goes
in front of elements it is not strictly greater than. -/
def pyInsert {α : Type} (lt : α → α → Bool) (x : α) : List α → List α
  | [] => [x]
  | y :: t => if lt y x then y :: pyInsert lt x t else x :: y :: t

/-- Model of Python's stable ascending sort (`list.sort()` / `sorted`)
under the strict comparison `lt`: a structurally recursive insertion
sort (kernel-evaluable, unlike well-founded merge sort). -/
def pySort {α : Type} (lt : α → α → Bool) (l : List α) : List α :=
  l.foldr (pyInsert lt) []

/-- Python `list.sort()` on a list of packet records: ascending in the
lexicographic string order `pktLt`. -/
def pySortPkts (l : List Pkt) : List Pkt := pySort pktLt l

/-- The per-flow interface census (library.py lines 101–111): a flow is a
"single-interface flow" when all its packets carry one interface name
(`pkt[1]`).  Returns the initial `singleIfFlows` dict. -/
def pktIfCounts (pkts : List Pkt) : List (String × ℕ) :=
  pkts.foldl (fun m p => bumpCount m ((p.get? 1).getD "")) []

def singleIfFlowsOf (pd : List (String × List Pkt)) : List (String × SIF) :=
  pd.filterMap
    (fun q =>
      match pktIfCounts q.2 with
      | [(n, _)] => some (q.1, SIF.name n)
      | _ => none)

/-- The state threaded through the NAT-join loops, plus a log of the
joins performed (mirroring the `NAT detected: joining …` print). -/
structure JoinState where
  pd : List (String × List Pkt)
  sif : List (String × SIF)
  log : List (String × String)
deriving DecidableEq, Repr

/-- The guard of the inner `for flow2` loop (library.py lines 118–124). -/
def joinCond (sif : List (String × SIF)) (f1 f2 : String) : Bool :=
  (sifGet sif f1).truthy && (sifGet sif f2).truthy &&
    f1 ≠ f2 && sifGet sif f1 ≠ sifGet sif f2 &&
    getProto f1 == getProto f2 &&
    (getSrc f1 == getSrc f2 || getDst f1 == getDst f2)

/-- The inner `for flow2` loop: scan candidates in dict order, on the
first match extend `flow1`'s list with `flow2`'s, pop `flow2`, re-sort
`flow1`'s list, clear both `singleIfFlows` entries and `break`. -/
def tryJoin (f1 : String) : List String → JoinState → Option JoinState
  | [], st => some st
  | f2 :: rest, st =>
    if joinCond st.sif f1 f2 then
      match pdGet st.pd f1, pdGet st.pd f2 with
      | some l1, some l2 =>
        some { pd := pdSet (pdPop st.pd f2) f1 (pySortPkts (l1 ++ l2)),
               sif := sifSet (sifSet st.sif f1 SIF.cleared) f2 SIF.cleared,
               log := st.log ++ [(f1, f2)] }
      | _, _ => none
    else tryJoin f1 rest st

/-- The outer `for flow1` loop (library.py lines 114–133). -/
def natJoinLoop (if_name : String) (allKeys : List String) :
    List String → JoinState → Option JoinState
  | [], st => some st
  | f1 :: rest, st =>
    if sifGet st.sif f1 = SIF.name if_name then
      match tryJoin f1 allKeys st with
      | none => none
      | some st' => natJoinLoop if_name allKeys rest st'
    else natJoinLoop if_name allKeys rest st

/-- The NAT-reunification stage of `parse_flows_file`: derive
`singleIfFlows` and run the join loops. -/
def natJoin (if_name : String) (pd : List (String × List Pkt)) : Option JoinState :=
  let sif := singleIfFlowsOf pd
  let keys := sif.map Prod.fst
  natJoinLoop if_name keys keys { pd := pd, sif := sif, log := [] }

/-- All of `parse_flows_file`: classify every input line, then reunify
NAT halves; the result is the `parsed_data` map. -/
def parse_flows_file (if_name : String) (input : List PLine) :
    Option (List (String × List Pkt)) :=
  (natJoin if_name (parse_flows_lines input).2).map (fun st => st.pd)

/-! ## The Dual-Capture Correlator (`parse_data`, library.py lines 165–379) -/

/-- Insertion-ordered dict lookup (`none` = KeyError / `not in`). -/
def alGet {κ α : Type} [DecidableEq κ] : List (κ × α) → κ → Option α
  | [], _ => none
  | (k, v) :: t, f => if k = f then some v else alGet t f

/-- Insertion-ordered dict assignment (update in place, else append). -/
def alSet {κ α : Type} [DecidableEq κ] : List (κ × α) → κ → α → List (κ × α)
  | [], f, w => [(f, w)]
  | (k, v) :: t, f, w => if k = f then (k, w) :: t else (k, v) :: alSet t f w

/-- `dict.pop(f)`. -/
def alPop {κ α : Type} [DecidableEq κ] : List (κ × α) → κ → List (κ × α)
  | [], _ => []
  | (k, v) :: t, f => if k = f then t else (k, v) :: alPop t f

/-- Model of Python `int(s)` on plain decimal strings (`none` = ValueError). -/
def pyIntStr (s : String) : Option ℤ :=
  let cs := s.toList
  let signed : Bool × List Char :=
    match cs with
    | '-' :: t => (true, t)
    | _ => (false, cs)
  match signed.2, digitsVal signed.2 with
  | _ :: _, some n => some (if signed.1 then -(n : ℤ) else (n : ℤ))
  | _, _ => none

/-- Python `str == int` comparison: always `False` (never an error). The
source's sanctioned-packet test reads `int(data[3] == 3)` — the
comparison happens inside the `int(...)` call — so this constant `false`
faithfully captures that sub-expression. -/
def pyStrEqInt (s : String) (n : ℤ) : Bool := false

/-- Python `int(b)` on a bool. -/
def pyBoolInt (b : Bool) : ℤ := if b then 1 else 0

/-- Python truthiness of an int. -/
def intTruthy (n : ℤ) : Bool := n ≠ 0

/-- The timestamp-collision epsilon `0.0000000001`. -/
def EPS : ℚ := mkRat 1 10000000000

/-- `while (index in keys): index += EPS`.  Each iteration requires the
current index to hit one of the finitely many (strictly increasing) keys,
so `keys.length + 1` fuel is always enough. -/
def perturbGo (keys : List ℚ) : ℕ → ℚ → ℚ
  | 0, x => x
  | n + 1, x => if x ∈ keys then perturbGo keys n (qadd x EPS) else x

def perturb (keys : List ℚ) (x : ℚ) : ℚ := perturbGo keys (keys.length + 1) x

def qsum (l : List ℚ) : ℚ := l.foldl qadd 0

/-- The per-flow working state of `parse_data` (the suffix 1 data is
CMCI-anchored/downstream, the suffix 2 data NSI-anchored/upstream, as in
the source). -/
structure PDState where
  pkt_times : List (String × ℚ)
  pkt_times2 : List (String × ℚ)
  latency1 : List (ℚ × ℚ)
  latency2 : List (ℚ × ℚ)
  dscp1 : List (String × ℕ)
  dscp2 : List (String × ℕ)
  ecn1 : List (String × ℕ)
  ecn2 : List (String × ℕ)
  pkt_size1 : List (ℚ × String)
  pkt_size2 : List (ℚ × String)
  dscp31 : List (ℚ × ℚ)
  dscp32 : List (ℚ × ℚ)
  CE_size1 : List (ℚ × String)
  CE_size2 : List (ℚ × String)
  total_packets1 : ℕ
  total_packets2 : ℕ
deriving Repr

def PDState.init : PDState :=
  ⟨[], [], [], [], [], [], [], [], [], [], [], [], [], [], 0, 0⟩

/-- One packet of the matching loop (library.py lines 193–281).  `none`
models an uncaught `float()`/`int()` exception. -/
def parse_data_step (if_name : String) (st : PDState) (data : Pkt) : Option PDState :=
  if 7 ≤ data.length then
    let packet_id := (data.get? 6).getD ""
    let d0 := (data.get? 0).getD ""
    let d1 := (data.get? 1).getD ""
    let d2 := (data.get? 2).getD ""
    let d3 := (data.get? 3).getD ""
    let d5 := (data.get? 5).getD ""
    if d1 = if_name then
      -- NSI-side packet
      match alGet st.pkt_times2 packet_id with
      | some t2 =>
        match pyFloat d0, pyIntStr d2, pyIntStr d3 with
        | some t0, some d2i, some d3i =>
          let index1 := perturb (st.latency1.map Prod.fst) t0
          let index2 := perturb (st.latency2.map Prod.fst) t2
          let lat := qneg (qsub t0 t2)
          let sanct := (d2i = 3) ∧ ((d3i = 1) ∨ intTruthy (pyBoolInt (pyStrEqInt d3 3)))
          some { st with
            latency1 := alSet st.latency1 index1 lat,
            latency2 := alSet st.latency2 index2 lat,
            pkt_size1 := alSet st.pkt_size1 index1 d5,
            pkt_size2 := alSet st.pkt_size2 index2 d5,
            dscp31 := if sanct then alSet st.dscp31 index1 (qsub t0 t2) else st.dscp31,
            dscp32 := if sanct then alSet st.dscp32 index2 (qsub t0 t2) else st.dscp32,
            CE_size1 := if d3i = 3 then alSet st.CE_size1 index1 d5 else st.CE_size1,
            CE_size2 := if d3i = 3 then alSet st.CE_size2 index2 d5 else st.CE_size2,
            pkt_times2 := alPop st.pkt_times2 packet_id,
            total_packets2 := st.total_packets2 + 1,
            dscp2 := bumpCount st.dscp2 d2,
            ecn2 := bumpCount st.ecn2 d3 }
        | _, _, _ => none
      | none =>
        match pyFloat d0 with
        | some t0 => some { st with pkt_times := alSet st.pkt_times packet_id t0 }
        | none => none
    else
      -- CMCI-side packet
      match alGet st.pkt_times packet_id with
      | some t1 =>
        match pyFloat d0, pyIntStr d2, pyIntStr d3 with
        | some t0, some d2i, some d3i =>
          let index1 := perturb (st.latency1.map Prod.fst) t1
          let index2 := perturb (st.latency2.map Prod.fst) t0
          let lat := qsub t0 t1
          let sanct := (d2i = 3) ∧ ((d3i = 1) ∨ intTruthy (pyBoolInt (pyStrEqInt d3 3)))
          some { st with
            latency1 := alSet st.latency1 index1 lat,
            latency2 := alSet st.latency2 index2 lat,
            pkt_size1 := alSet st.pkt_size1 index1 d5,
            pkt_size2 := alSet st.pkt_size2 index2 d5,
            dscp31 := if sanct then alSet st.dscp31 index1 (qsub t0 t1) else st.dscp31,
            dscp32 := if sanct then alSet st.dscp32 index2 (qsub t0 t1) else st.dscp32,
            CE_size1 := if d3i = 3 then alSet st.CE_size1 index1 d5 else st.CE_size1,
            CE_size2 := if d3i = 3 then alSet st.CE_size2 index2 d5 else st.CE_size2,
            pkt_times := alPop st.pkt_times packet_id,
            total_packets1 := st.total_packets1 + 1,
            dscp1 := bumpCount st.dscp1 d2,
            ecn1 := bumpCount st.ecn1 d3 }
        | _, _, _ => none
      | none =>
        match pyFloat d0 with
        | some t0 => some { st with pkt_times2 := alSet st.pkt_times2 packet_id t0 }
        | none => none
  else some st

/-- One emitted flow record of `parse_data` (the 9-element list the
source documents at lines 154–164). -/
structure FlowOut where
  drops : List (String × ℚ)
  latency : List (ℚ × ℚ)
  size : List (ℚ × String)
  total : ℕ
  unmatched : ℕ
  dscp : List (String × ℕ)
  ecn : List (String × ℕ)
  dscp3 : List (ℚ × ℚ)
  ceSize : List (ℚ × String)
deriving DecidableEq, Repr

/-- Direction decision and edge trimming for one flow (library.py lines
284–377).  Returns `none` for an exception, `some none` for a flow with
zero matches (excluded from the output), and otherwise the direction
(`true` = downstream) with the flow record. -/
def parse_data_finish (st : PDState) : Option (Option (Bool × FlowOut)) :=
  match st.latency1 with
  | [] => some none
  | (k0, _) :: _ =>
    let vals := st.latency1.map Prod.snd
    let mean := qdiv (qsum vals) ((vals.length : ℚ))
    if 0 < mean then
      -- downstream: use the suffix-1 data
      let keys := st.latency1.map Prod.fst
      let firstN := keys.foldl (fun a k => if k < a then k else a) k0
      let lastN := keys.foldl (fun a k => if a < k then k else a) k0
      match alGet st.latency1 firstN, alGet st.latency1 lastN with
      | some vF, some vL =>
        let firstC := qadd firstN vF
        let lastC := qadd lastN vL
        let keep1 := st.pkt_times.filter (fun p => !(decide (p.2 < firstN) || decide (lastN < p.2)))
        let dropped := keep1.length
        let keep2 := st.pkt_times2.filter (fun p => !(decide (p.2 < firstC) || decide (lastC < p.2)))
        let unmatched := keep2.length
        some (some (true,
          { drops := keep1, latency := st.latency1, size := st.pkt_size1,
            total := st.total_packets1 + unmatched + dropped, unmatched := unmatched,
            dscp := st.dscp1, ecn := st.ecn1, dscp3 := st.dscp31, ceSize := st.CE_size1 }))
      | _, _ => none
    else
      -- upstream: sign-flip the suffix-2 latencies and use the suffix-2 data
      let latency2 := st.latency2.map (fun p => (p.1, qmul (-1) p.2))
      match latency2 with
      | [] => none
      | (h0, _) :: _ =>
        let keys := latency2.map Prod.fst
        let firstC := keys.foldl (fun a k => if k < a then k else a) h0
        let lastC := keys.foldl (fun a k => if a < k then k else a) h0
        match alGet latency2 firstC, alGet latency2 lastC with
        | some vF, some vL =>
          let firstN := qadd firstC vF
          let lastN := qadd lastC vL
          let keep2 := st.pkt_times2.filter (fun p => !(decide (lastC < p.2) || decide (p.2 < firstC)))
          let dropped := keep2.length
          let keep1 := st.pkt_times.filter (fun p => !(decide (p.2 < firstN) || decide (lastN < p.2)))
          let unmatched := keep1.length
          some (some (false,
            { drops := keep2, latency := latency2, size := st.pkt_size2,
              total := st.total_packets2 + unmatched + dropped, unmatched := unmatched,
              dscp := st.dscp2, ecn := st.ecn2, dscp3 := st.dscp32, ceSize := st.CE_size2 }))
        | _, _ => none

/-- `parse_data` on one flow's packet list. -/
def parse_data_flow (if_name : String) (pkts : List Pkt) : Option (Option (Bool × FlowOut)) := do
  let st ← pkts.foldlM (parse_data_step if_name) PDState.init
  parse_data_finish st

/-- `parse_data`: returns the `(up_data, down_data)` maps. -/
def parse_data (pd : List (String × List Pkt)) (if_name : String) :
    Option (List (String × FlowOut) × List (String × FlowOut)) :=
  pd.foldlM
    (fun acc q => do
      let r ← parse_data_flow if_name q.2
      match r with
      | none => pure acc
      | some (isDown, fo) =>
        if isDown then pure (acc.1, acc.2 ++ [(q.1, fo)])
        else pure (acc.1 ++ [(q.1, fo)], acc.2))
    (([], []) : List (String × FlowOut) × List (String × FlowOut))

/-! ### C1: the reported total vs. matched + unmatched + dropped -/

/-- A flow whose two matches have opposite-sign latencies: packet `pa`
crosses NSI→CMCI (latency +1 s), packet `pb` crosses CMCI→NSI
(latency −0.1 s).  The mean is positive, so the flow is classified
downstream, yet only one of the two matches was completed by a CMCI-side
arrival (`total_packets1 = 1`). -/
def c1pkts : List Pkt :=
  [["0.0", "ns", "0", "0", "1", "100", "pa"],
   ["1.0", "cm", "0", "0", "1", "100", "pa"],
   ["2.0", "cm", "0", "0", "1", "100", "pb"],
   ["2.1", "ns", "0", "0", "1", "100", "pb"]]

/-! ### C3: the sanctioned-packet condition -/

/-- A matched packet with DSCP 3 and ECN 3 (CE). -/
def c3pktsCE : List Pkt :=
  [["0.0", "ns", "3", "3", "1", "100", "px"],
   ["1.0", "cm", "3", "3", "1", "100", "px"]]

/-- A matched packet with DSCP 3 and ECN 1 (ECT1). -/
def c3pktsECT1 : List Pkt :=
  [["0.0", "ns", "3", "1", "1", "100", "py"],
   ["1.0", "cm", "3", "1", "1", "100", "py"]]

/-! ### C2: the end-to-end five-packet scenario -/

/-- A 10-field TCP capture line: ports 1234→5678 in the payload head,
distinct payload tails giving the distinct fingerprints f0..f4. -/
def c2line (ts ifn pay : String) : PLine :=
  [ts, ifn, "10.0.0.1", "10.0.0.2", "6", "0", "0", "1", "100", pay]

/-- NSI stream at t = 0.0 .. 0.4 and CMCI stream shifted by +0.05 s with
the third packet (f2) omitted. -/
def c2input : List PLine :=
  [c2line "0.0" "ns" "04d2162ef0", c2line "0.1" "ns" "04d2162ef1",
   c2line "0.2" "ns" "04d2162ef2", c2line "0.3" "ns" "04d2162ef3",
   c2line "0.4" "ns" "04d2162ef4",
   c2line "0.05" "cm" "04d2162ef0", c2line "0.15" "cm" "04d2162ef1",
   c2line "0.35" "cm" "04d2162ef3", c2line "0.45" "cm" "04d2162ef4"]

/-- Reorder → Classify (CMCI name) → Correlate (NSI name), as composed by
multiflow.py. -/
def c2run : Option (List (String × FlowOut) × List (String × FlowOut)) := do
  let sorted ← pcapSort c2input
  let pd ← parse_flows_file "cm" sorted
  parse_data pd "ns"

/-! ## Aggregator helpers (`get_throughput` and the steady-state block of
`calculate_stats`, library.py lines 414–466) -/

/-- Python `int()` truncation toward zero on a rational. -/
def pyInt (q : ℚ) : ℤ := q.num.tdiv (q.den : ℤ)

/-- Rational floor, kernel-reducible (`den` is positive). -/
def qfloor (q : ℚ) : ℤ := q.num / (q.den : ℤ)

/-- `get_throughput` (library.py lines 414–438): bucket the frame bytes
into fixed `interval`-wide bins (truncating bucket index, `int()`-style),
convert to bits per second, and return the zero-filled array over buckets
`0..end_t` together with the observed end and start bucket indices
(`sys.maxsize` start and `0` end when no buckets exist). -/
def get_throughput (pkt_size : List (ℚ × String)) (interval : ℚ) :
    Option (List ℚ × ℤ × ℤ) := do
  let bps ← pkt_size.foldlM
    (fun (m : List (ℤ × ℚ)) p => do
      let sz ← pyFloat p.2
      let key := pyInt (qdiv p.1 interval)
      match alGet m key with
      | some v => pure (alSet m key (qadd v sz))
      | none => pure (alSet m key sz))
    ([] : List (ℤ × ℚ))
  let bps2 := bps.map (fun p => (p.1, qmul p.2 (qdiv 8 interval)))
  let start_t := bps2.foldl (fun a p => if p.1 < a then p.1 else a) ((2 : ℤ) ^ 63 - 1)
  let end_t := bps2.foldl (fun a p => if a < p.1 then p.1 else a) (0 : ℤ)
  let arr := (List.range (end_t.toNat + 1)).map (fun t => ((alGet bps2 (t : ℤ)).getD 0))
  pure (arr, end_t, start_t)

def npMean (a : List ℚ) : ℚ := qdiv (qsum a) ((a.length : ℚ))

/-- `np.percentile(a, q)` with the default linear interpolation, exactly:
sort ascending, take the virtual index `h = q/100 * (n-1)` and
interpolate between the neighbouring order statistics.  `none` models the
error on an empty input. -/
def npPercentile (a : List ℚ) (q : ℚ) : Option ℚ :=
  match pySort (fun x y => decide (x < y)) a with
  | [] => none
  | _ :: _ =>
    let sorted := pySort (fun x y => decide (x < y)) a
    let n := sorted.length
    let h := qdiv (qmul q (((n - 1 : ℕ) : ℚ))) 100
    let i := (qfloor h).toNat
    let lo := (sorted.get? i).getD 0
    if i + 1 ≤ n - 1 then
      some (qadd lo (qmul (qsub h (mkRat (qfloor h) 1)) (qsub ((sorted.get? (i + 1)).getD 0) lo)))
    else some ((sorted.get? (n - 1)).getD 0)

/-- The steady-state block of `calculate_stats` (library.py lines
458–466): 1-second throughput buckets past the warm-up offset, their mean
and the figure the code reports as the "P10 of data rate" — computed by
`np.percentile(..., 0.1)`.  (Slice indices are non-negative in all uses
modelled here.) -/
def steady_state_stats (pkt_size : List (ℚ × String)) (t_steadystate : ℤ) :
    Option (ℚ × ℚ) := do
  let r ← get_throughput pkt_size 1
  let bps_array := r.1
  let end_t := r.2.1
  let start_t := r.2.2
  if t_steadystate + start_t < end_t then
    let sl := (bps_array.drop (t_steadystate + start_t).toNat).take
      ((end_t + 1) - (t_steadystate + start_t)).toNat
    let p10 ← npPercentile sl (mkRat 1 10)
    pure (npMean sl, p10)
  else
    pure (npMean bps_array, 0)

/-! ### C7: the NAT-merge counterexample -/

/-- Two single-interface TCP flows with the same source address, one on
`cm` (a packet at t = 9.0 s) and one on `ns` (a packet at t = 10.0 s). -/
def c7pd : List (String × List Pkt) :=
  [("TCP [1.1.1.1 80] to [2.2.2.2 81]", [["9.0", "cm", "0", "0", "1", "100", "pa"]]),
   ("TCP [1.1.1.1 80] to [3.3.3.3 82]", [["10.0", "ns", "0", "0", "1", "100", "pb"]])]

/-- The flows appearing in a join log, in merge order. -/
def logFlows (l : List (String × String)) : List String :=
  l.foldr (fun e acc => e.1 :: e.2 :: acc) []

/-- Invariant of the NAT-join loops, relative to the initial maps `pd0`
(`parsed_data` before the join) and `sif0` (the initial `singleIfFlows`). -/
structure JInv (if_name : String) (pd0 : List (String × List Pkt))
    (sif0 : List (String × SIF)) (st : JoinState) : Prop where
  pdnodup : (st.pd.map Prod.fst).Nodup
  lognodup : (logFlows st.log).Nodup
  cleared : ∀ f ∈ logFlows st.log, sifGet st.sif f = SIF.cleared
  decay : ∀ f, sifGet st.sif f = sifGet sif0 f ∨ sifGet st.sif f = SIF.cleared
  ifn1 : ∀ e ∈ st.log, sifGet sif0 e.1 = SIF.name if_name
  fresh : ∀ f, f ∉ logFlows st.log → pdGet st.pd f = pdGet pd0 f
  merged : ∀ e ∈ st.log, ∃ l1 l2,
    pdGet pd0 e.1 = some l1 ∧ pdGet pd0 e.2 = some l2 ∧
    pdGet st.pd e.1 = some (pySortPkts (l1 ++ l2)) ∧ pdGet st.pd e.2 = none

/-- The final state of `natJoin "cm" c7pd`. -/
def c7st : JoinState :=
  { pd := [("TCP [1.1.1.1 80] to [2.2.2.2 81]",
            [["10.0", "ns", "0", "0", "1", "100", "pb"],
             ["9.0", "cm", "0", "0", "1", "100", "pa"]])],
    sif := [("TCP [1.1.1.1 80] to [2.2.2.2 81]", SIF.cleared),
            ("TCP [1.1.1.1 80] to [3.3.3.3 82]", SIF.cleared)],
    log := [("TCP [1.1.1.1 80] to [2.2.2.2 81]",
             "TCP [1.1.1.1 80] to [3.3.3.3 82]")] }

/-- A NATed flow pair for exercising the join guard: the first flow seen
only on "cm", the second only on "ns", same protocol and destination. -/
def c10pd : List (String × List Pkt) :=
  [("UDP [10.0.0.1 1000] to [8.8.8.8 53]",
    [["1.0", "cm", "0", "0", "0", "80", "qa"]]),
   ("UDP [192.168.0.5 1000] to [8.8.8.8 53]",
    [["2.0", "ns", "0", "0", "0", "80", "qb"]])]

/-- The final state of `natJoin "cm" c10pd`. -/
def c10st : JoinState :=
  { pd := [("UDP [10.0.0.1 1000] to [8.8.8.8 53]",
            [["1.0", "cm", "0", "0", "0", "80", "qa"],
             ["2.0", "ns", "0", "0", "0", "80", "qb"]])],
    sif := [("UDP [10.0.0.1 1000] to [8.8.8.8 53]", SIF.cleared),
            ("UDP [192.168.0.5 1000] to [8.8.8.8 53]", SIF.cleared)],
    log := [("UDP [10.0.0.1 1000] to [8.8.8.8 53]",
             "UDP [192.168.0.5 1000] to [8.8.8.8 53]")] }

/-! ## The small-flow merge stage of multiflow.py (lines 27–30, 49–69;
lines 75–95 are the same logic for the downstream direction) -/

def max_flow_plots : ℕ := 20

def min_pkts_per_flow : ℕ := 0

/-- `aggregated_data=[{},{},{},0,0,{},{},{},{}]` (multiflow.py line 59). -/
def aggInit : FlowOut :=
  { drops := [], latency := [], size := [], total := 0, unmatched := 0,
    dscp := [], ecn := [], dscp3 := [], ceSize := [] }

/-- Python dict merge `a | b`: the keys of `a` in order (values taken
from `b` on a clash), then the keys of `b` not in `a`, in their order. -/
def pyDictUnion {κ α : Type} [DecidableEq κ] (a b : List (κ × α)) :
    List (κ × α) :=
  a.map (fun q => (q.1, (alGet b q.1).getD q.2)) ++
    b.filter (fun q => (alGet a q.1).isNone)

/-- `{k: a.get(k,0)+b.get(k,0) for k in set(a)|set(b)}` (multiflow.py
line 66).  Python's set iteration order is unspecified; it is realised
here as the keys of `a` followed by the new keys of `b`. -/
def keywiseAdd (a b : List (String × ℕ)) : List (String × ℕ) :=
  a.map (fun q => (q.1, q.2 + (alGet b q.1).getD 0)) ++
    (b.filter (fun q => (alGet a q.1).isNone)).map
      (fun q => (q.1, (alGet a q.1).getD 0 + q.2))

/-- One iteration of the merge body (multiflow.py lines 61–66):
components 0,1,2,7,8 dict-merged, 3,4 summed, 5,6 key-wise added. -/
def aggMerge (agg f : FlowOut) : FlowOut :=
  { drops := pyDictUnion agg.drops f.drops,
    latency := pyDictUnion agg.latency f.latency,
    size := pyDictUnion agg.size f.size,
    total := agg.total + f.total,
    unmatched := agg.unmatched + f.unmatched,
    dscp := keywiseAdd agg.dscp f.dscp,
    ecn := keywiseAdd agg.ecn f.ecn,
    dscp3 := pyDictUnion agg.dscp3 f.dscp3,
    ceSize := pyDictUnion agg.ceSize f.ceSize }

/-- `num_flow_plots=0; for num_flow_plots in range(0, m): if counts[i] <
minP: break` — the Python loop variable retains its last assigned value,
so an exhausted loop over `m` indices leaves `m - 1`, not `m`. -/
def nfpAux (minP : ℕ) : ℕ → List ℕ → ℕ → ℕ
  | _, [], num => num
  | i, c :: rest, _ => if c < minP then i else nfpAux minP (i + 1) rest i

/-- `sorted(pkt_count.items(), key=lambda x:x[1], reverse=True)`:
stable descending sort of (flow, packet-count) pairs. -/
def flowRank (pd : List (String × FlowOut)) : List (String × ℕ) :=
  pySort (fun a b => decide (b.2 < a.2)) (pd.map (fun q => (q.1, q.2.total)))

/-- The value of `num_flow_plots` after the counting loop (multiflow.py
lines 54–57 with `range(0, min(max_flow_plots, len(...)))`). -/
def numFlowPlots (l : List (String × ℕ)) : ℕ :=
  nfpAux min_pkts_per_flow 0 ((l.take (min max_flow_plots l.length)).map Prod.snd) 0

/-- The aggregation loop (multiflow.py lines 60–68): for each flow past
the cut, read `pd[flow_id]` (`none` = KeyError), merge, pop. -/
def aggLoop : List (String × ℕ) → FlowOut → List (String × FlowOut) →
    Option (FlowOut × List (String × FlowOut))
  | [], agg, pd => some (agg, pd)
  | q :: rest, agg, pd =>
    match alGet pd q.1 with
    | none => none
    | some f => aggLoop rest (aggMerge agg f) (alPop pd q.1)

/-- The whole small-flow merge stage for one direction (multiflow.py
lines 49–69): rank flows by count, keep the first `num_flow_plots`,
merge the rest into a synthetic `"other flows"` entry. -/
def mergeSmallFlows (pd : List (String × FlowOut)) :
    Option (List (String × FlowOut)) :=
  let sorted := flowRank pd
  let num := numFlowPlots sorted
  if num + 1 < sorted.length then
    (aggLoop (sorted.drop num) aggInit pd).map
      (fun r => alSet r.2 "other flows" r.1)
  else some pd

/-- A 21-flow map for observing the flow-merge cut-off: flow `sNN` has
`22 - NN` packets, so the ranking is `s01 > s02 > … > s21`. -/
def c9flow (n : ℕ) : FlowOut :=
  { drops := [], latency := [], size := [], total := n, unmatched := 0,
    dscp := [], ecn := [], dscp3 := [], ceSize := [] }

def c9pd : List (String × FlowOut) :=
  [("s01", c9flow 21), ("s02", c9flow 20), ("s03", c9flow 19),
   ("s04", c9flow 18), ("s05", c9flow 17), ("s06", c9flow 16),
   ("s07", c9flow 15), ("s08", c9flow 14), ("s09", c9flow 13),
   ("s10", c9flow 12), ("s11", c9flow 11), ("s12", c9flow 10),
   ("s13", c9flow 9), ("s14", c9flow 8), ("s15", c9flow 7),
   ("s16", c9flow 6), ("s17", c9flow 5), ("s18", c9flow 4),
   ("s19", c9flow 3), ("s20", c9flow 2), ("s21", c9flow 1)]

/-! ## The cross-run combiner (proc_monte_carlo.py lines 45–57) -/

/-- A numpy scalar as seen by `confidence_interval`: a finite value
(exact ℚ) or one of the IEEE specials. -/
inductive NpVal
  | val (q : ℚ)
  | nan
  | inf
  | ninf
deriving DecidableEq, Repr

/-- The finite content of an `NpVal` (only read on all-finite vectors). -/
def NpVal.toQ : NpVal → ℚ
  | NpVal.val q => q
  | _ => 0

/-- `np.isinf(x).any()`. -/
def npAnyInf (x : List NpVal) : Bool :=
  x.any (fun v => decide (v = NpVal.inf ∨ v = NpVal.ninf))

/-- `np.isnan(x).any()`. -/
def npAnyNan (x : List NpVal) : Bool :=
  x.any (fun v => v == NpVal.nan)

/-- `np.all(x == 0)`: elementwise comparison with 0 (false on every
special value), and all of an empty vector is true. -/
def npAllZero (x : List NpVal) : Bool :=
  x.all (fun v => v == NpVal.val 0)

/-- `stats.sem(x) == 0` on an all-finite vector, decided exactly in ℚ:
the standard error `sqrt(sum((xi-mean)^2)/(n-1))/sqrt(n)` is zero iff
`n > 1` and the sum of squared deviations from the mean is zero (for
`n = 1` the ddof=1 sample variance is 0/0 = nan and `nan == 0` is
false, so the comparison also fails). -/
def semIsZero (q : List ℚ) : Bool :=
  decide (1 < q.length) &&
    decide ((q.map
      (fun v => qmul (qsub v (npMean q)) (qsub v (npMean q)))).foldl qadd 0 = 0)

/-- `confidence_interval` (proc_monte_carlo.py lines 45–57).  The value
of `stats.norm.interval(0.95, loc=mean, scale=sem)` followed by
`np.round(ci, 1)` is an irrational-valued library call; it is abstracted
as the parameter `ci`, mapping the finite input vector to the pair of
interval bounds. -/
def confidence_interval (ci : List ℚ → ℚ × ℚ) (x : List NpVal) :
    List NpVal :=
  if npAnyInf x || npAnyNan x || npAllZero x then
    [NpVal.nan, NpVal.nan, NpVal.nan]
  else
    let q := x.map NpVal.toQ
    if semIsZero q then
      [NpVal.val (npMean q), NpVal.val (npMean q), NpVal.val (npMean q)]
    else
      [NpVal.val (npMean q), NpVal.val (ci q).1, NpVal.val (ci q).2]

/-- The abstract CI computation used by the evaluation below. -/
def c8ci : List ℚ → ℚ × ℚ := fun _ => (0, 0)

def c8x : List NpVal := [NpVal.val 1, NpVal.val 1]

/-! ## Theorems -/

example : pyFloat "0.05" = some (mkRat 1 20) := by decide

example : pyFloat "10.0" = some 10 := by decide

example : pyFloat "-2.5" = some (mkRat (-5) 2) := by decide

example : pyFloat "" = none := by decide

example : pyFloat "x1" = none := by decide

-- sanity: a two-interface flush is merged by timestamp
example :
    pcapSort [["0.3", "b"], ["0.1", "a"], ["0.2", "a"]] =
      some [["0.1", "a"], ["0.2", "a"], ["0.3", "b"]] := by decide

-- sanity: blank lines are skipped
example : pcapSort [[], ["0.1", "a"], []] = some [["0.1", "a"]] := by decide

-- sanity: an empty input produces no output
example : pcapSort [] = some [] := by decide

/-- C5 counterexample: the claim says every line with fewer than 10 fields
is dropped silently by the Reorderer. In fact `pcap_sort.py` never checks
the field count: a 2-field line is buffered under its second field and
emitted like any other line, and a 1-field line makes `x[1]` raise an
uncaught `IndexError` (the 10-field check the spec describes lives in the
Classifier `parse_flows_file`, not in the Reorderer). -/
theorem C5_counterexample :
    pcapSort [c5Line10, c5Line2] = some [c5Line10, c5Line2] ∧
      pcapSort [c5Line10, ["3.0"]] = none := by decide

/-- C6 counterexample: the input's per-interface sub-sequences are each
locally non-decreasing, yet the Reorderer's complete output is not sorted
by timestamp (it emits t=1 before t=0, because interface `b` first
appears only after the 1000-line warm-up has already elapsed). -/
theorem C6_counterexample :
    locallySortedB c6Input = true ∧
      pcapSort c6Input = some [["1", "a"], ["0", "b"]] ∧
      sortedB [["1", "a"], ["0", "b"]] = false := by decide

lemma bufRecs_append (b₁ b₂ : Buf) :
    bufRecs (b₁ ++ b₂) = bufRecs b₁ ++ bufRecs b₂ := by
  induction b₁ with
  | nil => rfl
  | cons p t ih => simp [bufRecs_cons, ih, List.append_assoc]

lemma mem_bufRecs {b : Buf} {r : PLine} :
    r ∈ bufRecs b ↔ ∃ p ∈ b, r ∈ p.2 := by
  induction b with
  | nil => simp [bufRecs]
  | cons q t ih =>
    simp only [bufRecs_cons, List.mem_append, ih, List.mem_cons]
    constructor
    · rintro (h | ⟨p, hp, hr⟩)
      · exact ⟨q, Or.inl rfl, h⟩
      · exact ⟨p, Or.inr hp, hr⟩
    · rintro ⟨p, hp | hp, hr⟩
      · exact Or.inl (hp ▸ hr)
      · exact Or.inr ⟨p, hp, hr⟩

/-- `bufAppend` appends to the named buffer and leaves the rest intact. -/
lemma entOf_bufAppend (b : Buf) (n : String) (r : PLine) (m : String) :
    entOf (bufAppend b n r) m = if n = m then entOf b m ++ [r] else entOf b m := by
  induction b with
  | nil =>
    simp only [bufAppend, entOf]
    by_cases h : n = m <;> simp [h]
  | cons p t ih =>
    obtain ⟨k, rs⟩ := p
    simp only [bufAppend]
    by_cases hk : k = n
    · subst hk
      simp only [if_pos rfl, entOf]
      by_cases hm : k = m
      · subst hm; simp
      · simp [hm]
    · simp only [if_neg hk, entOf]
      by_cases hm : k = m
      · subst hm
        have hnm : ¬ n = k := fun h => hk h.symm
        simp [hnm]
      · simp [hm, ih]

lemma keys_bufAppend_of_mem {b : Buf} {n : String} (r : PLine)
    (h : n ∈ b.map Prod.fst) :
    (bufAppend b n r).map Prod.fst = b.map Prod.fst := by
  induction b with
  | nil => simp at h
  | cons p t ih =>
    obtain ⟨k, rs⟩ := p
    by_cases hk : k = n
    · subst hk; simp [bufAppend]
    · simp only [List.map_cons, List.mem_cons] at h
      rcases h with h | h

      · exact absurd h.symm hk
      · simp [bufAppend, hk, ih h]

lemma keys_bufAppend_of_not_mem {b : Buf} {n : String} (r : PLine)
    (h : n ∉ b.map Prod.fst) :
    (bufAppend b n r).map Prod.fst = b.map Prod.fst ++ [n] := by
  induction b with
  | nil => simp [bufAppend]
  | cons p t ih =>
    obtain ⟨k, rs⟩ := p
    simp only [List.map_cons, List.mem_cons] at h
    push_neg at h
    have hk : k ≠ n := fun hkn => h.1 hkn.symm
    simp [bufAppend, hk, ih h.2]

lemma keys_bufAppend_nodup {b : Buf} {n : String} (r : PLine)
    (h : (b.map Prod.fst).Nodup) :
    ((bufAppend b n r).map Prod.fst).Nodup := by
  by_cases hm : n ∈ b.map Prod.fst
  · rw [keys_bufAppend_of_mem r hm]; exact h
  · rw [keys_bufAppend_of_not_mem r hm]
    refine List.Nodup.append h (List.nodup_singleton n) ?_
    intro x hx hx'
    simp only [List.mem_singleton] at hx'
    exact hm (hx' ▸ hx)

lemma bufRecs_bufAppend (b : Buf) (n : String) (r : PLine) :
    (bufRecs (bufAppend b n r)).Perm (bufRecs b ++ [r]) := by
  induction b with
  | nil => simp [bufAppend, bufRecs]
  | cons p t ih =>
    obtain ⟨k, rs⟩ := p
    by_cases hk : k = n
    · subst hk
      simp only [bufAppend, if_pos rfl, bufRecs_cons]
      have h1 : (r :: bufRecs t).Perm (bufRecs t ++ [r]) :=
        (List.perm_append_singleton r (bufRecs t)).symm
      have h2 := List.Perm.append_left rs h1
      simpa [List.append_assoc] using h2
    · simp only [bufAppend, hk, if_false, bufRecs_cons]
      have h1 := List.Perm.append_left rs ih
      simpa [List.append_assoc] using h1

lemma tsOf_eq_of_headTs {r : PLine} {q : ℚ} (h : headTs r = some q) : tsOf r = q := by
  simp [tsOf, h]

lemma entOf_append (b₁ b₂ : Buf) (m : String) :
    entOf (b₁ ++ b₂) m = if m ∈ b₁.map Prod.fst then entOf b₁ m else entOf b₂ m := by
  induction b₁ with
  | nil => simp [entOf]
  | cons p t ih =>
    obtain ⟨k, ks⟩ := p
    by_cases hk : k = m
    · subst hk; simp [entOf]
    · have hk' : ¬ m = k := fun h => hk h.symm
      simp only [List.cons_append, entOf, hk, if_false, List.map_cons]
      show entOf (t ++ b₂) m = _
      by_cases hm : m ∈ List.map Prod.fst t
      · rw [ih, if_pos hm, if_pos (List.mem_cons_of_mem k hm)]
      · rw [ih, if_neg hm, if_neg (by simp [List.mem_cons, hk', hm])]

lemma entOf_of_mem_nodup {b : Buf} {n : String} {xs : List PLine}
    (hmem : (n, xs) ∈ b) (hnd : (b.map Prod.fst).Nodup) : entOf b n = xs := by
  induction b with
  | nil => simp at hmem
  | cons p t ih =>
    obtain ⟨k, ks⟩ := p
    simp only [List.map_cons, List.nodup_cons] at hnd
    rcases List.mem_cons.mp hmem with h | h
    · injection h with h1 h2
      subst h1; subst h2
      simp [entOf]
    · have hk : k ≠ n := by
        intro hkn
        exact hnd.1 (hkn ▸ (List.mem_map.mpr ⟨(n, xs), h, rfl⟩))
      simp [entOf, hk, ih h hnd.2]

/-- Popping the head of a known non-empty buffer: structural decomposition. -/
lemma popHead_decomp {b : Buf} {n : String} {r : PLine} {rs : List PLine}
    (hmem : (n, r :: rs) ∈ b) (hnd : (b.map Prod.fst).Nodup) :
    ∃ pre post, b = pre ++ (n, r :: rs) :: post ∧
      popHead b n = (pre ++ (n, rs) :: post, some r) ∧
      n ∉ pre.map Prod.fst := by
  induction b with
  | nil => simp at hmem
  | cons p t ih =>
    obtain ⟨k, ks⟩ := p
    simp only [List.map_cons, List.nodup_cons] at hnd
    rcases List.mem_cons.mp hmem with h | h
    · injection h with h1 h2
      subst h1; subst h2
      exact ⟨[], t, by simp, by simp [popHead], by simp⟩
    · have hk : k ≠ n := by
        intro hkn
        exact hnd.1 (hkn ▸ (List.mem_map.mpr ⟨(n, r :: rs), h, rfl⟩))
      obtain ⟨pre, post, hb, hpop, hpre⟩ := ih h hnd.2
      refine ⟨(k, ks) :: pre, post, by simp [hb], ?_, ?_⟩
      · simp only [popHead, hk, if_false, hpop, List.cons_append]
      · simp only [List.map_cons, List.mem_cons]
        push_neg
        exact ⟨fun hnk => hk hnk.symm, hpre⟩

/-- Combined specification of the head-scan `scanMin`: it succeeds on a
well-formed buffer, returns `none` only when every FIFO is empty (and the
accumulator was empty), and any returned pair is an actual buffer head
achieving the minimum over all heads and the accumulator. -/
lemma scanMin_spec {b : Buf}
    (hwf : ∀ p ∈ b, ∀ r ∈ p.2, (headTs r).isSome) :
    ∀ acc : Option (String × ℚ),
    ∃ res, scanMin b acc = some res ∧
      (res = none → acc = none ∧ ∀ p ∈ b, p.2 = []) ∧
      (∀ n q, res = some (n, q) →
        (acc = some (n, q) ∨ ∃ r rs, (n, r :: rs) ∈ b ∧ headTs r = some q) ∧
        (∀ p ∈ b, ∀ x xs, p.2 = x :: xs → q ≤ tsOf x) ∧
        (∀ p, acc = some p → q ≤ p.2)) := by
  induction b with
  | nil =>
    intro acc
    refine ⟨acc, rfl, fun h => ⟨h, by simp⟩, ?_⟩
    intro n q hacc
    refine ⟨Or.inl hacc, by simp, ?_⟩
    intro p hp
    rw [hacc] at hp
    injection hp with hp2
    simp [← hp2]
  | cons p t ih =>
    obtain ⟨k, ks⟩ := p
    intro acc
    have hwt : ∀ p ∈ t, ∀ r ∈ p.2, (headTs r).isSome :=
      fun p hp => hwf p (List.mem_cons_of_mem _ hp)
    cases ks with
    | nil =>
      obtain ⟨res, hrun, h0, h1⟩ := ih hwt acc
      refine ⟨res, by simpa [scanMin] using hrun, ?_, ?_⟩
      · intro hr
        obtain ⟨ha, hall⟩ := h0 hr
        refine ⟨ha, ?_⟩
        intro p hp
        rcases List.mem_cons.mp hp with h | h
        · simp [h]
        · exact hall p h
      · intro n q hr
        obtain ⟨hor, hmin, haccb⟩ := h1 n q hr
        refine ⟨?_, ?_, haccb⟩
        · rcases hor with h | ⟨r, rs, hm, hh⟩
          · exact Or.inl h
          · exact Or.inr ⟨r, rs, List.mem_cons_of_mem _ hm, hh⟩
        · intro p hp x xs hpx
          rcases List.mem_cons.mp hp with h | h
          · rw [h] at hpx; simp at hpx
          · exact hmin p h x xs hpx
    | cons r ks' =>
      have hhead : (headTs r).isSome :=
        hwf (k, r :: ks') (List.mem_cons_self _ _) r (List.mem_cons_self _ _)
      obtain ⟨q0, hq0⟩ := Option.isSome_iff_exists.mp hhead
      have htq0 : tsOf r = q0 := tsOf_eq_of_headTs hq0
      -- the accumulator passed to the tail scan
      set acc' : Option (String × ℚ) :=
        (match acc with
         | none => some (k, q0)
         | some p => if q0 < p.2 then some (k, q0) else some p) with hacc'
      obtain ⟨res, hrun, h0, h1⟩ := ih hwt acc'
      have hrun' : scanMin ((k, r :: ks') :: t) acc = some res := by
        simpa [scanMin, hq0, hacc'] using hrun
      refine ⟨res, hrun', ?_, ?_⟩
      · intro hr
        obtain ⟨ha, _⟩ := h0 hr
        exfalso
        rcases hacc0 : acc with _ | p
        · rw [hacc0] at hacc'; simp [hacc'] at ha
        · rw [hacc0] at hacc'
          by_cases hlt : q0 < p.2 <;> simp [hacc', hlt] at ha
      · intro n q hr
        obtain ⟨hor, hmin, haccb⟩ := h1 n q hr
        have haccb' : ∀ p, acc = some p → q ≤ p.2 := by
          intro p hp
          rw [hp] at hacc'
          by_cases hlt : q0 < p.2
          · have := haccb (k, q0) (by simp [hacc', hlt])
            exact le_trans this (le_of_lt hlt)
          · exact haccb p (by simp [hacc', hlt])
        have hqq0 : q ≤ q0 := by
          rcases hacc0 : acc with _ | p
          · rw [hacc0] at hacc'
            simpa using haccb (k, q0) (by simp [hacc'])
          · rw [hacc0] at hacc'
            by_cases hlt : q0 < p.2
            · simpa using haccb (k, q0) (by simp [hacc', hlt])
            · have := haccb p (by simp [hacc', hlt])
              exact le_trans this (not_lt.mp hlt)
        refine ⟨?_, ?_, haccb'⟩
        · rcases hor with h | ⟨x, xs, hm, hh⟩
          · -- res came from the accumulator we passed down
            rcases hacc0 : acc with _ | p
            · rw [hacc0] at hacc'
              simp only [hacc'] at h
              injection h with h2
              injection h2 with hk2 hq2
              exact Or.inr ⟨r, ks', by rw [← hk2]; exact List.mem_cons_self _ _, hq2 ▸ hq0⟩
            · rw [hacc0] at hacc'
              by_cases hlt : q0 < p.2
              · simp only [hacc', if_pos hlt] at h
                injection h with h2
                injection h2 with hk2 hq2
                exact Or.inr ⟨r, ks', by rw [← hk2]; exact List.mem_cons_self _ _, hq2 ▸ hq0⟩
              · simp only [hacc', if_neg hlt] at h
                injection h with h2
                exact Or.inl (by rw [h2])
          · exact Or.inr ⟨x, xs, List.mem_cons_of_mem _ hm, hh⟩
        · intro p hp x xs hpx
          rcases List.mem_cons.mp hp with h | h
          · rw [h] at hpx
            simp only at hpx
            injection hpx with hx _
            rw [← hx, htq0]
            exact hqq0
          · exact hmin p h x xs hpx

lemma anyNonempty_eq_false_iff {b : Buf} :
    anyNonempty b = false ↔ ∀ p ∈ b, p.2 = [] := by
  simp [anyNonempty, List.any_eq_false, List.isEmpty_iff]

lemma bufRecs_eq_nil_of_all_empty {b : Buf} (h : ∀ p ∈ b, p.2 = []) :
    bufRecs b = [] := by
  induction b with
  | nil => rfl
  | cons p t ihb =>
    rw [bufRecs_cons, h p (List.mem_cons_self _ _)]
    simp only [List.nil_append]
    exact ihb (fun p hp => h p (List.mem_cons_of_mem _ hp))

lemma allNonempty_eq_true_iff {b : Buf} :
    allNonempty b = true ↔ ∀ p ∈ b, p.2 ≠ [] := by
  simp [allNonempty, List.all_eq_true, List.isEmpty_iff]

lemma bufCount_append (b₁ b₂ : Buf) :
    bufCount (b₁ ++ b₂) = bufCount b₁ + bufCount b₂ := by
  simp [bufCount]

lemma bufCount_cons (p : String × List PLine) (t : Buf) :
    bufCount (p :: t) = p.2.length + bufCount t := by
  simp [bufCount]

/-- A lower bound on every head is a lower bound on every buffered line,
as soon as every buffer is sorted. -/
lemma le_bufRecs_of_le_heads {b : Buf} (hs : BufSorted b) {q : ℚ}
    (hmin : ∀ p ∈ b, ∀ x xs, p.2 = x :: xs → q ≤ tsOf x) :
    ∀ y ∈ bufRecs b, q ≤ tsOf y := by
  intro y hy
  obtain ⟨p, hp, hyp⟩ := mem_bufRecs.mp hy
  obtain ⟨x, xs, hx⟩ : ∃ x xs, p.2 = x :: xs := by
    cases hpp : p.2 with
    | nil => rw [hpp] at hyp; simp at hyp
    | cons a l => exact ⟨a, l, rfl⟩
  have h1 : q ≤ tsOf x := hmin p hp x xs hx
  have h2 := hs p hp
  rw [hx] at h2 hyp
  rcases List.mem_cons.mp hyp with h | h
  · rw [h]; exact h1
  · exact le_trans h1 ((List.pairwise_cons.mp h2).1 y h)

/-- Main invariant lemma for the `outputs` loop: on a well-formed,
per-buffer-sorted buffer map it succeeds, emits a sorted sequence that is
(together with what remains buffered) a permutation of what was buffered,
emits only values that lower-bound everything left behind (and every
"future" line `F` that is covered by a buffer, for the streaming calls),
and drains everything when `doneReading` is set. -/
lemma outputsFuel_spec :
    ∀ (fuel : ℕ) (done : Bool) (b : Buf) (F : List PLine),
    BufWf b → BufSorted b → (b.map Prod.fst).Nodup → b ≠ [] →
    bufCount b < fuel →
    (∀ r' ∈ F, ∃ m rs, r'.get? 1 = some m ∧ (m, rs) ∈ b ∧ ∀ x ∈ rs, tsOf x ≤ tsOf r') →
    (done = true → F = []) →
    ∃ b' out, outputsFuel fuel done b = some (b', out) ∧
      b'.map Prod.fst = b.map Prod.fst ∧
      (∀ m, ∃ d, entOf b m = d ++ entOf b' m) ∧
      ((out ++ bufRecs b').Perm (bufRecs b)) ∧
      out.Pairwise tsLe ∧
      (∀ x ∈ out, ∀ y ∈ bufRecs b', tsOf x ≤ tsOf y) ∧
      (∀ x ∈ out, ∀ r' ∈ F, tsOf x ≤ tsOf r') ∧
      (done = true → bufRecs b' = []) := by
  intro fuel
  induction fuel with
  | zero =>
    intro done b F _ _ _ _ hfuel _ _
    exact absurd hfuel (Nat.not_lt_zero _)
  | succ fuel ih =>
    intro done b F hwf hs hnd hne hfuel hF hdoneF
    by_cases hcond : outputsCond done b = true
    · -- the loop runs one more iteration
      obtain ⟨res, hscan, h0, h1⟩ := scanMin_spec hwf none
      match hres : res with
      | none =>
        -- impossible: the condition guarantees a non-empty buffer
        exfalso
        obtain ⟨-, hall⟩ := h0 rfl
        have hcond2 : (done && anyNonempty b) = true ∨ allNonempty b = true := by
          have : ((done && anyNonempty b) || allNonempty b) = true := by
            simpa [outputsCond] using hcond
          simpa [Bool.or_eq_true] using this
        rcases hcond2 with h | h
        · obtain ⟨hd, hany⟩ := (Bool.and_eq_true done (anyNonempty b)).mp h
          obtain ⟨p, hp, hpe⟩ := List.any_eq_true.mp hany
          rw [hall p hp] at hpe
          simp at hpe
        · obtain ⟨p, hp⟩ : ∃ p, p ∈ b := by
            cases b with
            | nil => exact absurd rfl hne
            | cons a t => exact ⟨a, List.mem_cons_self a t⟩
          have := allNonempty_eq_true_iff.mp h p hp
          exact this (hall p hp)
      | some (n, q) =>
        obtain ⟨hor, hmin, -⟩ := h1 n q rfl
        obtain ⟨r, rs, hmem, hq⟩ : ∃ r rs, (n, r :: rs) ∈ b ∧ headTs r = some q := by
          rcases hor with h | h
          · exact Option.noConfusion h
          · exact h
        have htr : tsOf r = q := tsOf_eq_of_headTs hq
        obtain ⟨pre, post, hb, hpop, hpre⟩ := popHead_decomp hmem hnd
        -- the buffer after the pop
        set b1 : Buf := pre ++ (n, rs) :: post with hb1
        have hkeys1 : b1.map Prod.fst = b.map Prod.fst := by
          rw [hb, hb1]; simp
        have hwf1 : BufWf b1 := by
          intro p hp x hx
          rw [hb1] at hp
          rcases List.mem_append.mp hp with h | h
          · exact hwf p (hb ▸ List.mem_append_left _ h) x hx
          · rcases List.mem_cons.mp h with h | h
            · refine hwf (n, r :: rs) hmem x ?_
              rw [h] at hx
              exact List.mem_cons_of_mem _ hx
            · exact hwf p (hb ▸ List.mem_append_right _ (List.mem_cons_of_mem _ h)) x hx
        have hs1 : BufSorted b1 := by
          intro p hp
          rw [hb1] at hp
          rcases List.mem_append.mp hp with h | h
          · exact hs p (hb ▸ List.mem_append_left _ h)
          · rcases List.mem_cons.mp h with h | h
            · have := hs (n, r :: rs) hmem
              rw [h]
              exact (List.pairwise_cons.mp this).2
            · exact hs p (hb ▸ List.mem_append_right _ (List.mem_cons_of_mem _ h))
        have hnd1 : (b1.map Prod.fst).Nodup := hkeys1 ▸ hnd
        have hne1 : b1 ≠ [] := by
          rw [hb1]
          cases pre <;> simp
        have hcount : bufCount b = bufCount b1 + 1 := by
          rw [hb, hb1, bufCount_append, bufCount_append, bufCount_cons, bufCount_cons]
          simp [Nat.add_assoc, Nat.add_comm, Nat.add_left_comm]
        have hfuel1 : bufCount b1 < fuel := by omega
        have hF1 : ∀ r' ∈ F, ∃ m rs0, r'.get? 1 = some m ∧ (m, rs0) ∈ b1 ∧
            ∀ x ∈ rs0, tsOf x ≤ tsOf r' := by
          intro r' hr'
          obtain ⟨m, rs0, hg, hmem0, hle⟩ := hF r' hr'
          by_cases hmn : m = n
          · subst hmn
            have : rs0 = r :: rs := by
              have e1 := entOf_of_mem_nodup hmem0 hnd
              have e2 := entOf_of_mem_nodup hmem hnd
              rw [e1] at e2; exact e2
            refine ⟨m, rs, hg, ?_, ?_⟩
            · rw [hb1]
              exact List.mem_append_right _ (List.mem_cons_self _ _)
            · intro x hx
              exact hle x (this ▸ List.mem_cons_of_mem _ hx)
          · refine ⟨m, rs0, hg, ?_, hle⟩
            rw [hb] at hmem0
            rw [hb1]
            rcases List.mem_append.mp hmem0 with h | h
            · exact List.mem_append_left _ h
            · rcases List.mem_cons.mp h with h | h
              · exact absurd (congrArg Prod.fst h) (by simpa using hmn)
              · exact List.mem_append_right _ (List.mem_cons_of_mem _ h)
        obtain ⟨b'', out', hrun', hkeys'', hent'', hperm'', hpw'', hlo'', hFb'', hflush''⟩ :=
          ih done b1 F hwf1 hs1 hnd1 hne1 hfuel1 hF1 hdoneF
        -- the one-step run equation
        have hrunstep : outputsFuel (fuel + 1) done b = some (b'', r :: out') := by
          have hpop' : popHead b n = (b1, some r) := by rw [hb1]; exact hpop
          simp only [outputsFuel, hcond, if_true, hscan, hres, hpop', hrun']
        -- q lower-bounds everything still buffered after the pop
        have hq_lb : ∀ y ∈ bufRecs b1, q ≤ tsOf y := by
          have hminall : ∀ y ∈ bufRecs b, q ≤ tsOf y := le_bufRecs_of_le_heads hs hmin
          intro y hy
          refine hminall y ?_
          rw [hb1, bufRecs_append, bufRecs_cons] at hy
          rw [hb, bufRecs_append, bufRecs_cons]
          simp only [List.mem_append, List.mem_cons] at hy ⊢
          tauto
        -- a single pop is a permutation step
        have hpermstep : (r :: bufRecs b1).Perm (bufRecs b) := by
          rw [hb, hb1, bufRecs_append, bufRecs_append, bufRecs_cons, bufRecs_cons]
          exact List.perm_middle.symm
        refine ⟨b'', r :: out', hrunstep, hkeys''.trans hkeys1, ?_, ?_, ?_, ?_, ?_, hflush''⟩
        · -- entries only lose a front segment
          intro m
          obtain ⟨d, hd⟩ := hent'' m
          by_cases hmn : n = m
          · subst hmn
            have e2 : entOf b n = r :: rs := entOf_of_mem_nodup hmem hnd
            have e1 : entOf b1 n = rs := by
              rw [hb1, entOf_append]
              rw [if_neg (by simpa using hpre)]
              simp [entOf]
            rw [e1] at hd
            refine ⟨r :: d, ?_⟩
            rw [e2, hd]
            simp
          · refine ⟨d, ?_⟩
            have e : entOf b1 m = entOf b m := by
              rw [hb1, hb, entOf_append, entOf_append]
              by_cases hm : m ∈ pre.map Prod.fst
              · simp [hm]
              · simp only [hm, if_false]
                simp [entOf, hmn]
            rw [← e, hd]
        · -- permutation
          have hA : ((r :: out') ++ bufRecs b'') = r :: (out' ++ bufRecs b'') := by simp
          rw [hA]
          exact (hperm''.cons r).trans hpermstep
        · -- sortedness of the emission
          rw [List.pairwise_cons]
          refine ⟨?_, hpw''⟩
          intro y hy
          have : y ∈ bufRecs b1 := (hperm''.mem_iff).mp (List.mem_append_left _ hy)
          rw [tsLe, htr]
          exact hq_lb y this
        · -- emitted values lower-bound what stays buffered
          intro x hx y hy
          rcases List.mem_cons.mp hx with h | h
          · have hyb1 : y ∈ bufRecs b1 := (hperm''.mem_iff).mp (List.mem_append_right _ hy)
            rw [h, htr]
            exact hq_lb y hyb1
          · exact hlo'' x h y hy
        · -- emitted values lower-bound the future lines
          intro x hx r' hr'
          rcases List.mem_cons.mp hx with h | h
          · -- the newly popped line: only the streaming mode has a non-empty F
            cases done with
            | true => rw [hdoneF rfl] at hr'; cases hr'
            | false =>
              have hall : allNonempty b = true := by
                simpa [outputsCond] using hcond
              obtain ⟨m, rs0, hg, hmem0, hle⟩ := hF r' hr'
              obtain ⟨x0, xs0, hx0⟩ : ∃ x0 xs0, rs0 = x0 :: xs0 := by
                have := allNonempty_eq_true_iff.mp hall (m, rs0) hmem0
                cases hrr : rs0 with
                | nil => exact absurd hrr this
                | cons a l => exact ⟨a, l, rfl⟩
              have h1 : q ≤ tsOf x0 := hmin (m, rs0) hmem0 x0 xs0 hx0
              have h2 : tsOf x0 ≤ tsOf r' := hle x0 (hx0 ▸ List.mem_cons_self _ _)
              rw [h, htr]
              exact le_trans h1 h2
          · exact hFb'' x h r' hr'
    · -- the loop does not run
      have hcond' : outputsCond done b = false := by
        cases h : outputsCond done b
        · rfl
        · exact absurd h hcond
      refine ⟨b, [], ?_, rfl, fun m => ⟨[], rfl⟩, by simp, List.Pairwise.nil, by simp, by simp, ?_⟩
      · simp only [outputsFuel, hcond', if_false]
        simp
      · intro hdone
        subst hdone
        have hany : anyNonempty b = false := by
          cases h : anyNonempty b
          · rfl
          · exfalso
            apply hcond
            simp [outputsCond, h]
        exact bufRecs_eq_nil_of_all_empty (anyNonempty_eq_false_iff.mp hany)

lemma mem_keys_exists {b : Buf} {m : String} (h : m ∈ b.map Prod.fst) :
    ∃ rs, (m, rs) ∈ b := by
  obtain ⟨p, hp, hpm⟩ := List.mem_map.mp h
  exact ⟨p.2, by rwa [← hpm, Prod.mk.eta]⟩

lemma get1_of_len2 {r : PLine} (h : 2 ≤ r.length) : ∃ m, r.get? 1 = some m := by
  match r with
  | a :: c :: t => exact ⟨c, rfl⟩

lemma nbRecs_append (I₁ I₂ : List PLine) :
    nbRecs (I₁ ++ I₂) = nbRecs I₁ ++ nbRecs I₂ := by
  simp [nbRecs]

lemma recsOf_append (I₁ I₂ : List PLine) (m : String) :
    recsOf (I₁ ++ I₂) m = recsOf I₁ m ++ recsOf I₂ m := by
  simp [recsOf]

lemma mem_recsOf {I : List PLine} {m : String} {r : PLine} :
    r ∈ recsOf I m ↔ r ∈ I ∧ r ≠ [] ∧ r.get? 1 = some m := by
  simp [recsOf, List.mem_filter, List.isEmpty_iff]

lemma mem_nbRecs {I : List PLine} {r : PLine} :
    r ∈ nbRecs I ↔ r ∈ I ∧ r ≠ [] := by
  simp [nbRecs, List.mem_filter, List.isEmpty_iff]

lemma inv_bufRecs_sub {I P E : List PLine} {b : Buf} (inv : RLInv I P E b) :
    ∀ y ∈ bufRecs b, y ∈ nbRecs P :=
  fun _ hy => (inv.perm.mem_iff).mp (List.mem_append_right E hy)

lemma inv_wf {I P E ls : List PLine} {b : Buf} (hI : I = P ++ ls)
    (H1 : InWf I) (inv : RLInv I P E b) : BufWf b := by
  intro p hp x hx
  have hm : x ∈ bufRecs b := mem_bufRecs.mpr ⟨p, hp, hx⟩
  have h2 := mem_nbRecs.mp (inv_bufRecs_sub inv x hm)
  exact (H1 x (hI ▸ List.mem_append_left _ h2.1) h2.2).2

lemma inv_sorted {I P E ls : List PLine} {b : Buf} (hI : I = P ++ ls)
    (H2 : InLocSorted I) (inv : RLInv I P E b) : BufSorted b := by
  intro p hp
  obtain ⟨m, rs⟩ := p
  have he : entOf b m = rs := entOf_of_mem_nodup hp inv.nodup
  cases hrs : rs with
  | nil => exact List.Pairwise.nil
  | cons x xs =>
    have hx : x ∈ entOf b m := by rw [he, hrs]; exact List.mem_cons_self _ _
    obtain ⟨Em, hEm⟩ := inv.ent m
    have hxP : x ∈ recsOf P m := by rw [hEm]; exact List.mem_append_right _ hx
    obtain ⟨hxPmem, hxne, hxget⟩ := mem_recsOf.mp hxP
    have hmI : m ∈ I.filterMap (fun r => r.get? 1) :=
      List.mem_filterMap.mpr ⟨x, hI ▸ List.mem_append_left _ hxPmem, hxget⟩
    have hpw : (recsOf I m).Pairwise tsLe := H2 m hmI
    have hpwP : (recsOf P m).Pairwise tsLe := by
      rw [hI, recsOf_append] at hpw
      exact (List.pairwise_append.mp hpw).1
    have hsub : rs.Sublist (recsOf P m) := by
      rw [hEm, ← he]
      exact List.sublist_append_right Em (entOf b m)
    rw [← hrs]
    exact hpwP.sublist hsub

lemma take_eq_of_le {P ls : List PLine} (hlen : 1001 ≤ P.length) :
    (P ++ ls).take 1001 = P.take 1001 := by
  rw [List.take_append_eq_append_take]
  have : 1001 - P.length = 0 := Nat.sub_eq_zero_of_le hlen
  simp [this]

lemma inv_keycover {I P E ls : List PLine} {b : Buf} (hI : I = P ++ ls)
    (inv : RLInv I P E b) (hlen : 1001 ≤ P.length)
    {r : PLine} {m : String} (hr : r ∈ I) (hne : r ≠ [])
    (H3 : InEarly I) (hget : r.get? 1 = some m) : m ∈ b.map Prod.fst := by
  obtain ⟨r', hr', hrne', hget'⟩ := H3 r hr hne
  have htake : I.take 1001 = P.take 1001 := by rw [hI]; exact take_eq_of_le hlen
  have hr'P : r' ∈ P := List.take_subset 1001 P (htake ▸ hr')
  exact (inv.keys m).mpr ⟨r', hr'P, hrne', by rw [hget', hget]⟩

lemma inv_futOK {I P E ls : List PLine} {b : Buf} (hI : I = P ++ ls)
    (H1 : InWf I) (H2 : InLocSorted I) (H3 : InEarly I)
    (inv : RLInv I P E b) (hlen : 1001 ≤ P.length) :
    ∀ r' ∈ nbRecs ls, ∃ m rs, r'.get? 1 = some m ∧ (m, rs) ∈ b ∧
      ∀ x ∈ rs, tsOf x ≤ tsOf r' := by
  intro r' hr'
  obtain ⟨hr'ls, hr'ne⟩ := mem_nbRecs.mp hr'
  have hr'I : r' ∈ I := hI ▸ List.mem_append_right P hr'ls
  obtain ⟨m, hget⟩ := get1_of_len2 (H1 r' hr'I hr'ne).1
  have hkey : m ∈ b.map Prod.fst := inv_keycover hI inv hlen hr'I hr'ne H3 hget
  obtain ⟨rs, hmem⟩ := mem_keys_exists hkey
  refine ⟨m, rs, hget, hmem, ?_⟩
  intro x hx
  have he : entOf b m = rs := entOf_of_mem_nodup hmem inv.nodup
  obtain ⟨Em, hEm⟩ := inv.ent m
  have hxP : x ∈ recsOf P m := by
    rw [hEm, he]
    exact List.mem_append_right _ hx
  have hr'R : r' ∈ recsOf ls m := mem_recsOf.mpr ⟨hr'ls, hr'ne, hget⟩
  have hmI : m ∈ I.filterMap (fun r => r.get? 1) :=
    List.mem_filterMap.mpr ⟨r', hr'I, hget⟩
  have hpw : (recsOf I m).Pairwise tsLe := H2 m hmI
  rw [hI, recsOf_append] at hpw
  exact (List.pairwise_append.mp hpw).2.2 x hxP r' hr'R

lemma inv_bne {I P E ls : List PLine} {b : Buf} (hI : I = P ++ ls)
    (H1 : InWf I) (H4 : InNonempty I) (inv : RLInv I P E b)
    (hlen : 1001 ≤ P.length) : b ≠ [] := by
  have hlenI : 1001 ≤ I.length := by
    rw [hI, List.length_append]
    omega
  obtain ⟨r, hr, hrne⟩ := H4 hlenI
  have hrI : r ∈ I := List.take_subset 1001 I hr
  obtain ⟨m, hget⟩ := get1_of_len2 (H1 r hrI hrne).1
  have hkey : m ∈ b.map Prod.fst := by
    have htake : I.take 1001 = P.take 1001 := by rw [hI]; exact take_eq_of_le hlen
    have hrP : r ∈ P := List.take_subset 1001 P (htake ▸ hr)
    exact (inv.keys m).mpr ⟨r, hrP, hrne, hget⟩
  intro hb
  rw [hb] at hkey
  simp at hkey

lemma drain_spec {I P E ls : List PLine} {b : Buf}
    (H1 : InWf I) (H2 : InLocSorted I) (H3 : InEarly I) (H4 : InNonempty I)
    (hI : I = P ++ ls) (hlen : 1001 ≤ P.length)
    (inv : RLInv I P E b) :
    ∃ b₂ out₂, outputs false b = some (b₂, out₂) ∧ RLInv I P (E ++ out₂) b₂ := by
  have hwf := inv_wf hI H1 inv
  have hsort := inv_sorted hI H2 inv
  have hne := inv_bne hI H1 H4 inv hlen
  have hfut := inv_futOK hI H1 H2 H3 inv hlen
  have hdrop : I.drop P.length = ls := by rw [hI]; exact List.drop_left P ls
  obtain ⟨b₂, out₂, hrun, hkeys, hent, hperm, hpw, hlo, hFb, -⟩ :=
    outputsFuel_spec (bufCount b + 1) false b (nbRecs ls) hwf hsort inv.nodup hne
      (Nat.lt_succ_self _) hfut (fun h => by cases h)
  refine ⟨b₂, out₂, hrun, ?_⟩
  refine ⟨hkeys ▸ inv.nodup, ?_, ?_, ?_, ?_, ?_, ?_⟩
  · intro m
    rw [hkeys]
    exact inv.keys m
  · intro m
    obtain ⟨Em, hEm⟩ := inv.ent m
    obtain ⟨d, hd⟩ := hent m
    exact ⟨Em ++ d, by rw [hEm, hd, List.append_assoc]⟩
  · have h1 : ((E ++ out₂) ++ bufRecs b₂) = E ++ (out₂ ++ bufRecs b₂) := by
      rw [List.append_assoc]
    rw [h1]
    exact ((hperm.append_left E).trans inv.perm)
  · rw [List.pairwise_append]
    refine ⟨inv.esort, hpw, ?_⟩
    intro x hx y hy
    have : y ∈ bufRecs b := (hperm.mem_iff).mp (List.mem_append_left _ hy)
    exact inv.elob x hx y this
  · intro x hx y hy
    rcases List.mem_append.mp hx with h | h
    · have hyb : y ∈ bufRecs b := (hperm.mem_iff).mp (List.mem_append_right _ hy)
      exact inv.elob x h y hyb
    · exact hlo x h y hy
  · intro x hx r' hr'
    rw [hdrop] at hr'
    rcases List.mem_append.mp hx with h | h
    · have helof := inv.elof x h
      rw [hdrop] at helof
      exact helof r' hr'
    · exact hFb x h r' hr'

lemma mem_keys_bufAppend {b : Buf} {k m : String} (l : PLine) :
    m ∈ (bufAppend b k l).map Prod.fst ↔ m ∈ b.map Prod.fst ∨ m = k := by
  by_cases hk : k ∈ b.map Prod.fst
  · rw [keys_bufAppend_of_mem l hk]
    constructor
    · exact Or.inl
    · rintro (h | h)
      · exact h
      · exact h ▸ hk
  · rw [keys_bufAppend_of_not_mem l hk]
    simp [List.mem_append]

lemma blank_step_inv {I P ls E : List PLine} {b : Buf} {l : PLine}
    (hI : I = P ++ l :: ls) (hl : l = [])
    (inv : RLInv I P E b) : RLInv I (P ++ [l]) E b := by
  have hrecs : ∀ m, recsOf (P ++ [l]) m = recsOf P m := by
    intro m
    rw [recsOf_append]
    subst hl
    simp [recsOf]
  have hnb : nbRecs (P ++ [l]) = nbRecs P := by
    rw [nbRecs_append]
    subst hl
    simp [nbRecs]
  have hdrop : I.drop (P ++ [l]).length = ls := by
    have : I = (P ++ [l]) ++ ls := by rw [hI]; simp
    rw [this]
    exact List.drop_left _ _
  refine ⟨inv.nodup, ?_, ?_, ?_, inv.esort, inv.elob, ?_⟩
  · intro m
    rw [inv.keys m]
    constructor
    · rintro ⟨r, hr, hrne, hg⟩
      exact ⟨r, List.mem_append_left _ hr, hrne, hg⟩
    · rintro ⟨r, hr, hrne, hg⟩
      rcases List.mem_append.mp hr with h | h
      · exact ⟨r, h, hrne, hg⟩
      · rw [List.mem_singleton.mp h, hl] at hrne
        exact absurd rfl hrne
  · intro m
    rw [hrecs m]
    exact inv.ent m
  · rw [hnb]
    exact inv.perm
  · intro x hx r' hr'
    rw [hdrop] at hr'
    have := inv.elof x hx
    have hdrop0 : I.drop P.length = l :: ls := by rw [hI]; exact List.drop_left _ _
    rw [hdrop0] at this
    refine this r' ?_
    rcases mem_nbRecs.mp hr' with ⟨h1, h2⟩
    exact mem_nbRecs.mpr ⟨List.mem_cons_of_mem _ h1, h2⟩

lemma append_step_inv {I P ls E : List PLine} {b : Buf} {l : PLine} {k : String}
    (hI : I = P ++ l :: ls) (hl : l ≠ []) (hk : l.get? 1 = some k)
    (inv : RLInv I P E b) : RLInv I (P ++ [l]) E (bufAppend b k l) := by
  have hdrop0 : I.drop P.length = l :: ls := by rw [hI]; exact List.drop_left _ _
  have hdrop : I.drop (P ++ [l]).length = ls := by
    have : I = (P ++ [l]) ++ ls := by rw [hI]; simp
    rw [this]
    exact List.drop_left _ _
  have hlnb : l ∈ nbRecs (l :: ls) := mem_nbRecs.mpr ⟨List.mem_cons_self _ _, hl⟩
  refine ⟨keys_bufAppend_nodup l inv.nodup, ?_, ?_, ?_, inv.esort, ?_, ?_⟩
  · intro m
    rw [mem_keys_bufAppend l, inv.keys m]
    constructor
    · rintro (⟨r, hr, hrne, hg⟩ | h)
      · exact ⟨r, List.mem_append_left _ hr, hrne, hg⟩
      · exact ⟨l, List.mem_append_right _ (List.mem_singleton_self l), hl, h ▸ hk⟩
    · rintro ⟨r, hr, hrne, hg⟩
      rcases List.mem_append.mp hr with h | h
      · exact Or.inl ⟨r, h, hrne, hg⟩
      · right
        rw [List.mem_singleton.mp h] at hg
        rw [hk] at hg
        exact (Option.some.injEq .. ▸ hg).symm
  · intro m
    obtain ⟨Em, hEm⟩ := inv.ent m
    rw [recsOf_append, hEm, entOf_bufAppend]
    by_cases hkm : k = m
    · subst hkm
      have hc : (!l.isEmpty && l.get? 1 == some k) = true := by
        rw [hk]
        simp [List.isEmpty_iff, hl]
      have hrl : recsOf [l] k = [l] := by
        simp only [recsOf, List.filter, hc]
      rw [hrl, if_pos rfl]
      exact ⟨Em, by rw [List.append_assoc]⟩
    · have hc : (!l.isEmpty && l.get? 1 == some m) = false := by
        rw [hk]
        simp [hkm]
      have hrl : recsOf [l] m = [] := by
        simp only [recsOf, List.filter, hc]
      rw [hrl, if_neg hkm, List.append_nil]
      exact ⟨Em, rfl⟩
  · have hnb : nbRecs (P ++ [l]) = nbRecs P ++ [l] := by
      rw [nbRecs_append]
      have hce : (!l.isEmpty) = true := by simp [List.isEmpty_iff, hl]
      simp only [nbRecs, List.filter, hce]
    rw [hnb]
    have h1 := (bufRecs_bufAppend b k l).append_left E
    refine h1.trans ?_
    have h2 : E ++ (bufRecs b ++ [l]) = (E ++ bufRecs b) ++ [l] := by
      rw [List.append_assoc]
    rw [h2]
    exact inv.perm.append (List.Perm.refl [l])
  · intro x hx y hy
    have hy' : y ∈ bufRecs b ++ [l] :=
      ((bufRecs_bufAppend b k l).mem_iff).mp hy
    rcases List.mem_append.mp hy' with h | h
    · exact inv.elob x hx y h
    · rw [List.mem_singleton.mp h]
      have := inv.elof x hx
      rw [hdrop0] at this
      exact this l hlnb
  · intro x hx r' hr'
    rw [hdrop] at hr'
    have := inv.elof x hx
    rw [hdrop0] at this
    refine this r' ?_
    rcases mem_nbRecs.mp hr' with ⟨h1, h2⟩
    exact mem_nbRecs.mpr ⟨List.mem_cons_of_mem _ h1, h2⟩

lemma isEmpty_false_of_ne {α : Type} {l : List α} (hl : l ≠ []) : l.isEmpty = false := by
  cases hh : l.isEmpty
  · rfl
  · exact absurd (List.isEmpty_iff.mp hh) hl

lemma readLoop_spec {I : List PLine}
    (H1 : InWf I) (H2 : InLocSorted I) (H3 : InEarly I) (H4 : InNonempty I) :
    ∀ (ls P E : List PLine) (b : Buf),
    I = P ++ ls → RLInv I P E b →
    ∃ b' out, readLoop P.length b ls = some (b', out) ∧ RLInv I I (E ++ out) b' := by
  intro ls
  induction ls with
  | nil =>
    intro P E b hI inv
    refine ⟨b, [], rfl, ?_⟩
    rw [List.append_nil]
    have hPI : P = I := by rw [hI, List.append_nil]
    exact hPI ▸ inv
  | cons l ls' ih =>
    intro P E b hI inv
    have hI' : I = (P ++ [l]) ++ ls' := by rw [hI]; simp
    have hlen' : (P ++ [l]).length = P.length + 1 := by simp
    -- the buffered state after this line, and its invariant
    obtain ⟨b₁, hread, inv₁⟩ :
        ∃ b₁, readLine b l = some b₁ ∧ RLInv I (P ++ [l]) E b₁ := by
      by_cases hl : l = []
      · refine ⟨b, ?_, blank_step_inv hI hl inv⟩
        rw [readLine, if_pos (by rw [hl]; rfl)]
      · have hlI : l ∈ I := by
          rw [hI]
          exact List.mem_append_right _ (List.mem_cons_self _ _)
        obtain ⟨k, hk⟩ := get1_of_len2 (H1 l hlI hl).1
        refine ⟨bufAppend b k l, ?_, append_step_inv hI hl hk inv⟩
        rw [readLine, if_neg (by rw [isEmpty_false_of_ne hl]; exact Bool.false_ne_true), hk]
    by_cases hwu : P.length + 1 > 1000
    · -- the post-warm-up drain runs after this line
      have hlen : 1001 ≤ (P ++ [l]).length := by
        rw [hlen']
        omega
      obtain ⟨b₂, out₂, hrun₂, inv₂⟩ := drain_spec H1 H2 H3 H4 hI' hlen inv₁
      obtain ⟨b', out', hrun', inv'⟩ := ih (P ++ [l]) (E ++ out₂) b₂ hI' inv₂
      rw [hlen'] at hrun'
      refine ⟨b', out₂ ++ out', ?_, ?_⟩
      · show readLoop P.length b (l :: ls') = some (b', out₂ ++ out')
        simp only [readLoop, hread, hrun₂, if_pos hwu, hrun']
      · rw [← List.append_assoc]
        exact inv'
    · -- still warming up
      obtain ⟨b', out', hrun', inv'⟩ := ih (P ++ [l]) E b₁ hI' inv₁
      rw [hlen'] at hrun'
      refine ⟨b', out', ?_, inv'⟩
      show readLoop P.length b (l :: ls') = some (b', out')
      simp only [readLoop, hread, if_neg hwu, hrun']

/-- End-to-end correctness of the Reorderer on inputs whose interfaces
all appear before the first post-warm-up drain: the run succeeds and the
complete output is a timestamp-sorted permutation of the non-blank input
lines. -/
theorem pcapSort_ok {I : List PLine}
    (H1 : InWf I) (H2 : InLocSorted I) (H3 : InEarly I) (H4 : InNonempty I) :
    ∃ out, pcapSort I = some out ∧ out.Perm (nbRecs I) ∧ out.Pairwise tsLe := by
  have inv0 : RLInv I [] [] [] := by
    refine ⟨List.nodup_nil, ?_, ?_, ?_, List.Pairwise.nil, ?_, ?_⟩
    · intro m
      simp
    · intro m
      exact ⟨[], rfl⟩
    · exact List.Perm.refl _
    · intro x hx
      simp at hx
    · intro x hx
      simp at hx
  obtain ⟨b', out, hrun, inv⟩ := readLoop_spec H1 H2 H3 H4 I [] [] [] rfl inv0
  rw [List.nil_append] at inv
  have hI0 : I = I ++ [] := by simp
  have h0 : readLoop 0 [] I = some (b', out) := hrun
  by_cases hb : b' = []
  · subst hb
    simp only [pcapSort, h0, List.isEmpty_nil, if_true]
    refine ⟨out, rfl, ?_, inv.esort⟩
    have hperm := inv.perm
    simpa using hperm
  · have hbe : b'.isEmpty = false := isEmpty_false_of_ne hb
    simp only [pcapSort, h0, hbe, Bool.false_eq_true, if_false]
    have hwf := inv_wf hI0 H1 inv
    have hsort := inv_sorted hI0 H2 inv
    obtain ⟨b₂, out₂, hrun₂, -, -, hperm₂, hpw₂, hlo₂, -, hflush₂⟩ :=
      outputsFuel_spec (bufCount b' + 1) true b' [] hwf hsort inv.nodup hb
        (Nat.lt_succ_self _) (fun r' hr' => absurd hr' (List.not_mem_nil r'))
        (fun _ => rfl)
    have hrun₂' : outputs true b' = some (b₂, out₂) := hrun₂
    rw [hrun₂']
    refine ⟨out ++ out₂, rfl, ?_, ?_⟩
    · have h1 : out₂.Perm (bufRecs b') := by
        have := hperm₂
        rw [hflush₂ rfl, List.append_nil] at this
        exact this
      exact ((h1.append_left out).trans inv.perm)
    · rw [List.pairwise_append]
      refine ⟨inv.esort, hpw₂, ?_⟩
      intro x hx y hy
      have hyb : y ∈ bufRecs b' := by
        have := hperm₂.mem_iff.mp (List.mem_append_left _ hy)
        exact this
      exact inv.elob x hx y hyb

/-- C5 (amended): the Reorderer performs no field-count validation.  Per
input line: a blank line is skipped silently; a non-blank line with at
least 2 fields is always buffered (appended to its interface's FIFO,
hence later emitted like every buffered line), whatever its field count;
and a non-blank line with exactly 1 field raises an uncaught IndexError.
(The 10-field minimum of the spec is enforced by the Classifier, not by
the Reorderer.) -/
theorem C5_theorem (b : Buf) (l : PLine) :
    (l = [] → readLine b l = some b) ∧
    (2 ≤ l.length → ∃ k, l.get? 1 = some k ∧ readLine b l = some (bufAppend b k l) ∧
      entOf (bufAppend b k l) k = entOf b k ++ [l]) ∧
    (l ≠ [] → l.length < 2 → readLine b l = none) := by
  refine ⟨?_, ?_, ?_⟩
  · intro hl
    rw [readLine, if_pos (by rw [hl]; rfl)]
  · intro hlen
    obtain ⟨k, hk⟩ := get1_of_len2 hlen
    have hl : l ≠ [] := by
      intro h
      rw [h] at hlen
      simp at hlen
    refine ⟨k, hk, ?_, ?_⟩
    · rw [readLine, if_neg (by rw [isEmpty_false_of_ne hl]; exact Bool.false_ne_true), hk]
    · rw [entOf_bufAppend, if_pos rfl]
  · intro hl hlen
    have hk : l.get? 1 = none := by
      cases l with
      | nil => rfl
      | cons a t =>
        cases t with
        | nil => rfl
        | cons c t' =>
          exfalso
          simp only [List.length_cons] at hlen
          omega
    rw [readLine, if_neg (by rw [isEmpty_false_of_ne hl]; exact Bool.false_ne_true), hk]

/-- Witness for `C5_theorem` at a concrete 3-field line. -/
theorem C5_witness :
    2 ≤ (["1.0", "eth0", "x"] : PLine).length ∧
      (∃ k, (["1.0", "eth0", "x"] : PLine).get? 1 = some k ∧
        readLine [] ["1.0", "eth0", "x"] = some (bufAppend [] k ["1.0", "eth0", "x"]) ∧
        entOf (bufAppend [] k ["1.0", "eth0", "x"]) k =
          entOf ([] : Buf) k ++ [["1.0", "eth0", "x"]]) :=
  ⟨by decide, (C5_theorem [] ["1.0", "eth0", "x"]).2.1 (by decide)⟩

/-- C6 (amended): if every line is well formed, each interface's own
sub-sequence is non-decreasing in timestamp, AND every interface's first
record arrives within the first 1001 lines (before the first post-warm-up
drain; also some record arrives during warm-up whenever the input is that
long), then the Reorderer's complete output is a permutation of the
non-blank input lines sorted by non-decreasing timestamp.  Without the
early-arrival condition the claim fails (`C6_counterexample`), as the
source itself documents. -/
theorem C6_theorem (input : List PLine)
    (H1 : InWf input) (H2 : InLocSorted input) (H3 : InEarly input)
    (H4 : InNonempty input) :
    pcapSort input ≠ none ∧
      ((pcapSort input).getD []).Perm (nbRecs input) ∧
      ((pcapSort input).getD []).Pairwise tsLe := by
  obtain ⟨out, hrun, hperm, hpw⟩ := pcapSort_ok H1 H2 H3 H4
  rw [hrun]
  exact ⟨Option.some_ne_none out, by simpa using hperm, by simpa using hpw⟩

/-- Witness for `C6_theorem` at a concrete three-record input. -/
theorem C6_witness :
    InWf c6wInput ∧ InLocSorted c6wInput ∧ InEarly c6wInput ∧ InNonempty c6wInput ∧
      pcapSort c6wInput ≠ none ∧
      ((pcapSort c6wInput).getD []).Perm (nbRecs c6wInput) ∧
      ((pcapSort c6wInput).getD []).Pairwise tsLe := by
  have h1 : InWf c6wInput := by unfold InWf; decide
  have h2 : InLocSorted c6wInput := by unfold InLocSorted; decide
  have h3 : InEarly c6wInput := by unfold InEarly; decide
  have h4 : InNonempty c6wInput := by unfold InNonempty; decide
  obtain ⟨a, b, c⟩ := C6_theorem c6wInput h1 h2 h3 h4
  exact ⟨h1, h2, h3, h4, a, b, c⟩

lemma qadd_eq (a b : ℚ) : qadd a b = a + b := by
  rw [qadd, Rat.mkRat_eq_div]
  conv_rhs => rw [← Rat.num_div_den a, ← Rat.num_div_den b]
  have ha : ((a.den : ℤ) : ℚ) ≠ 0 := by
    exact_mod_cast (Nat.cast_ne_zero (R := ℚ)).mpr a.den_nz
  have hb : ((b.den : ℤ) : ℚ) ≠ 0 := by
    exact_mod_cast (Nat.cast_ne_zero (R := ℚ)).mpr b.den_nz
  push_cast
  rw [div_add_div _ _ (by exact_mod_cast ha) (by exact_mod_cast hb)]
  ring_nf

lemma qsub_eq (a b : ℚ) : qsub a b = a - b := by
  rw [qsub, Rat.mkRat_eq_div]
  conv_rhs => rw [← Rat.num_div_den a, ← Rat.num_div_den b]
  have ha : ((a.den : ℚ)) ≠ 0 := (Nat.cast_ne_zero (R := ℚ)).mpr a.den_nz
  have hb : ((b.den : ℚ)) ≠ 0 := (Nat.cast_ne_zero (R := ℚ)).mpr b.den_nz
  push_cast
  rw [div_sub_div _ _ ha hb]
  ring_nf

lemma qmul_eq (a b : ℚ) : qmul a b = a * b := by
  rw [qmul, Rat.mkRat_eq_div]
  conv_rhs => rw [← Rat.num_div_den a, ← Rat.num_div_den b]
  have ha : ((a.den : ℚ)) ≠ 0 := (Nat.cast_ne_zero (R := ℚ)).mpr a.den_nz
  have hb : ((b.den : ℚ)) ≠ 0 := (Nat.cast_ne_zero (R := ℚ)).mpr b.den_nz
  push_cast
  rw [div_mul_div_comm]

lemma qneg_eq (a : ℚ) : qneg a = -a := by
  rw [qneg, Rat.mkRat_eq_div]
  conv_rhs => rw [← Rat.num_div_den a]
  push_cast
  rw [neg_div]

lemma qdiv_eq (a b : ℚ) : qdiv a b = a / b := by
  rw [Rat.div_def']
  rcases le_or_lt 0 b.num with hb | hb
  · rw [qdiv, if_pos hb, Rat.mkRat_eq_divInt]
    congr 1
    rw [Nat.cast_mul, Int.toNat_of_nonneg hb]
  · rw [qdiv, if_neg (not_le.mpr hb), Rat.mkRat_eq_divInt]
    have h1 : ((a.den * (-b.num).toNat : ℕ) : ℤ) = -((a.den : ℤ) * b.num) := by
      rw [Nat.cast_mul, Int.toNat_of_nonneg (by omega : (0:ℤ) ≤ -b.num)]
      ring
    rw [h1, Rat.neg_divInt_neg]

example : qadd (mkRat 1 20) (mkRat 3 20) = mkRat 1 5 := by decide

example : qdiv (mkRat 1 2) (mkRat (-1) 4) = -2 := by decide

example : qsub 1 (mkRat 1 4) = mkRat 3 4 := by decide

-- sanity: hex port recovery and flow-id construction
example :
    ((parse_flows_lines
        [["1.0", "cm", "10.0.0.1", "10.0.0.2", "6", "0", "0", "7", "100", "04d2162e"]]).2.map
      Prod.fst) = ["TCP [10.0.0.1 1234] to [10.0.0.2 5678]"] := by decide

-- sanity: short lines are skipped by the classifier (compare C5)
example : (parse_flows_lines [["1.0", "cm"]]).2 = [] := by decide

-- sanity: flow-id split accessors
example : getSrc "TCP [10.0.0.1 1234] to [10.0.0.2 5678]" = ["[10.0.0.1", "1234]"] := by decide

example : getDst "TCP [10.0.0.1 1234] to [10.0.0.2 5678]" = ["[10.0.0.2", "5678]"] := by decide

example : getProto "TCP [10.0.0.1 1234] to [10.0.0.2 5678]" = "TCP" := by decide

/-- C1: `parse_data` documents output field 3 as the
"count_of_matched_pkts_unmatched_pkts_and_dropped_pkts", but the
downstream branch stores `total_packets1 + unmatched + dropped`, and
`total_packets1` only counts matches completed by a CMCI-side arrival.
On `c1pkts` the flow is reported downstream with 2 matched packets
(entries of the latency map), 0 unmatched, 0 dropped — and a reported
total of 1 ≠ 2 + 0 + 0. -/
theorem C1_theorem :
    parse_data [("f", c1pkts)] "ns" =
      some ([],
        [("f",
          { drops := [], latency := [(0, 1), (mkRat 21 10, mkRat (-1) 10)],
            size := [(0, "100"), (mkRat 21 10, "100")], total := 1, unmatched := 0,
            dscp := [("0", 1)], ecn := [("0", 1)], dscp3 := [], ceSize := [] })]) ∧
    (1 : ℕ) ≠ [(0, 1), ((mkRat 21 10 : ℚ), (mkRat (-1) 10 : ℚ))].length + 0 + 0 := by
  constructor
  · decide
  · decide

/-- C3: the source's guard reads
`(int(data[2]) == 3) and ((int(data[3]) == 1) or (int(data[3] == 3)))`;
in the second disjunct the comparison sits inside `int(...)`, and a
`str`/`int` comparison is always `False`, so `int(data[3] == 3)` is the
falsy `0`.  Hence a matched packet with DSCP 3 and ECN 3 (CE) is NOT
recorded in the sanctioned map (it is recorded in the CE-size map), while
a DSCP-3/ECT1 packet is — contradicting both the claim and the code's own
comment "if DSCP=3 and either ECT1 or CE". -/
theorem C3_theorem :
    (parse_data [("f", c3pktsCE)] "ns" =
      some ([],
        [("f",
          { drops := [], latency := [(0, 1)], size := [(0, "100")], total := 1,
            unmatched := 0, dscp := [("3", 1)], ecn := [("3", 1)], dscp3 := [],
            ceSize := [(0, "100")] })])) ∧
    (parse_data [("f", c3pktsECT1)] "ns" =
      some ([],
        [("f",
          { drops := [], latency := [(0, 1)], size := [(0, "100")], total := 1,
            unmatched := 0, dscp := [("3", 1)], ecn := [("1", 1)], dscp3 := [(0, 1)],
            ceSize := [] })])) := by
  constructor
  · decide
  · decide

/-- C2: on the five-packet scenario the pipeline produces no upstream
flow and exactly one downstream flow with 4 matches of exactly 0.05 s
each (at NSI timestamps 0.0, 0.1, 0.3, 0.4), a total count of 5, zero
unmatched packets, and exactly one dropped packet — f2, the NSI packet
at t = 0.2. -/
theorem C2_theorem :
    (c2run.map (fun r => r.1)) = some [] ∧
    (c2run.map (fun r => r.2.map Prod.fst)) =
      some ["TCP [10.0.0.1 1234] to [10.0.0.2 5678]"] ∧
    (c2run.map (fun r => r.2.map
        (fun q => (q.2.latency, q.2.total, q.2.unmatched, q.2.drops.map Prod.snd)))) =
      some [([(0, mkRat 1 20), (mkRat 1 10, mkRat 1 20), (mkRat 3 10, mkRat 1 20),
              (mkRat 2 5, mkRat 1 20)], 5, 0, [mkRat 1 5])] := by
  refine ⟨?_, ?_, ?_⟩
  · decide
  · decide
  · decide

lemma qfloor_eq (q : ℚ) : qfloor q = ⌊q⌋ := Rat.floor_def.symm

-- sanity: a single 100-byte packet at t = 0.5 s with 1 s buckets
example : get_throughput [(mkRat 1 2, "100")] 1 = some ([800], 0, 0) := by decide

/-! ### C4: the "P10 of data rate" figure -/

/-- C4: on two 1-second buckets of 1000 and 2000 bps (a 125-byte packet
at t=0.5 s and a 250-byte packet at t=1.5 s) with zero warm-up, the code
reports 1001 bps as the steady-state "P10 of data rate".  That value is
`np.percentile(buckets, 0.1)` — the 0.1th percentile — whereas the 10th
percentile of the same buckets is 1100 bps.  Everywhere else the same
function passes percentile ranks on the 0–100 scale (`[0, 0.1, 1, 10,
...]` labelled P0, P0.1, P1, P10), and the CSV labels this figure "P10
of data rate (Mbps)", so the `0.1` is a slip for `10`. -/
theorem C4_theorem :
    steady_state_stats [(mkRat 1 2, "125"), (mkRat 3 2, "250")] 0 = some (1500, 1001) ∧
    npPercentile [1000, 2000] 10 = some 1100 ∧ ((1001 : ℚ)) ≠ 1100 := by
  refine ⟨?_, ?_, ?_⟩
  · decide
  · decide
  · decide

/-- C7 counterexample: the merge concatenates the two packet lists and
re-sorts with Python `list.sort()`, which compares the string fields
lexicographically — so the merged list is ["10.0", …] before ["9.0", …],
which is NOT non-decreasing numeric timestamp order (10 s > 9 s). -/
theorem C7_counterexample :
    (natJoin "cm" c7pd).map (fun st => (st.pd, st.log)) =
      some ([("TCP [1.1.1.1 80] to [2.2.2.2 81]",
              [["10.0", "ns", "0", "0", "1", "100", "pb"],
               ["9.0", "cm", "0", "0", "1", "100", "pa"]])],
            [("TCP [1.1.1.1 80] to [2.2.2.2 81]", "TCP [1.1.1.1 80] to [3.3.3.3 82]")]) ∧
    pyFloat "10.0" = some 10 ∧ pyFloat "9.0" = some 9 ∧ ¬ ((10 : ℚ) ≤ 9) := by
  refine ⟨?_, ?_, ?_, ?_⟩
  · decide
  · decide
  · decide
  · decide

/-! ### Dictionary lemmas for the NAT-join proofs -/

lemma sifSet_keys (s : List (String × SIF)) (f : String) (v : SIF) :
    (sifSet s f v).map Prod.fst = s.map Prod.fst := by
  induction s with
  | nil => rfl
  | cons p t ih =>
    obtain ⟨k, w⟩ := p
    by_cases hk : k = f <;> simp [sifSet, hk, ih]

lemma sifGet_sifSet_ne {s : List (String × SIF)} {f g : String} (v : SIF) (h : g ≠ f) :
    sifGet (sifSet s f v) g = sifGet s g := by
  induction s with
  | nil => rfl
  | cons p t ih =>
    obtain ⟨k, w⟩ := p
    by_cases hk : k = f
    · subst hk
      have : ¬ k = g := fun hkg => h hkg.symm
      simp [sifSet, sifGet, this]
    · by_cases hg : k = g <;> simp [sifSet, sifGet, hk, hg, h, ih]

lemma sifGet_sifSet_self {s : List (String × SIF)} {f : String} (v : SIF)
    (h : f ∈ s.map Prod.fst) : sifGet (sifSet s f v) f = v := by
  induction s with
  | nil => simp at h
  | cons p t ih =>
    obtain ⟨k, w⟩ := p
    by_cases hk : k = f
    · simp [sifSet, sifGet, hk]
    · simp only [List.map_cons, List.mem_cons] at h
      rcases h with h | h
      · exact absurd h.symm hk
      · simp [sifSet, sifGet, hk, ih h]

lemma sifGet_mem_of_ne_cleared {s : List (String × SIF)} {f : String}
    (h : sifGet s f ≠ SIF.cleared) : f ∈ s.map Prod.fst := by
  induction s with
  | nil => exact absurd rfl h
  | cons p t ih =>
    obtain ⟨k, w⟩ := p
    by_cases hk : k = f
    · simp [hk]
    · simp only [sifGet, hk, if_false] at h
      simp [List.mem_cons, ih h]

lemma pdGet_pdSet_self (p : List (String × List Pkt)) (f : String) (w : List Pkt) :
    pdGet (pdSet p f w) f = some w := by
  induction p with
  | nil => simp [pdSet, pdGet]
  | cons q t ih =>
    obtain ⟨k, v⟩ := q
    by_cases hk : k = f <;> simp [pdSet, pdGet, hk, ih]

lemma pdGet_pdSet_ne {p : List (String × List Pkt)} {f g : String} (w : List Pkt)
    (h : g ≠ f) : pdGet (pdSet p f w) g = pdGet p g := by
  induction p with
  | nil =>
    have : ¬ f = g := fun hfg => h hfg.symm
    simp [pdSet, pdGet, this]
  | cons q t ih =>
    obtain ⟨k, v⟩ := q
    by_cases hk : k = f
    · subst hk
      have : ¬ k = g := fun hkg => h hkg.symm
      simp [pdSet, pdGet, this]
    · by_cases hg : k = g <;> simp [pdSet, pdGet, hk, hg, h, ih]

lemma pdGet_pdPop_ne {p : List (String × List Pkt)} {f g : String} (h : g ≠ f) :
    pdGet (pdPop p f) g = pdGet p g := by
  induction p with
  | nil => rfl
  | cons q t ih =>
    obtain ⟨k, v⟩ := q
    by_cases hk : k = f
    · subst hk
      have : ¬ k = g := fun hkg => h hkg.symm
      simp [pdPop, pdGet, this]
    · by_cases hg : k = g <;> simp [pdPop, pdGet, hk, hg, h, ih]

lemma pdGet_eq_none_of_not_mem {p : List (String × List Pkt)} {f : String}
    (h : f ∉ p.map Prod.fst) : pdGet p f = none := by
  induction p with
  | nil => rfl
  | cons q t ih =>
    obtain ⟨k, v⟩ := q
    simp only [List.map_cons, List.mem_cons] at h
    push_neg at h
    have hk : ¬ k = f := fun hkf => h.1 hkf.symm
    simp [pdGet, hk, ih h.2]

lemma pdPop_keys_sublist (p : List (String × List Pkt)) (f : String) :
    ((pdPop p f).map Prod.fst).Sublist (p.map Prod.fst) := by
  induction p with
  | nil => simp [pdPop]
  | cons q t ih =>
    obtain ⟨k, v⟩ := q
    by_cases hk : k = f
    · simp only [pdPop, hk, if_pos rfl, List.map_cons]
      exact (List.sublist_cons_self _ _)
    · simp only [pdPop, hk, if_false, List.map_cons]
      exact ih.cons₂ k

lemma pdGet_pdPop_self {p : List (String × List Pkt)} {f : String}
    (hnd : (p.map Prod.fst).Nodup) : pdGet (pdPop p f) f = none := by
  induction p with
  | nil => rfl
  | cons q t ih =>
    obtain ⟨k, v⟩ := q
    simp only [List.map_cons, List.nodup_cons] at hnd
    by_cases hk : k = f
    · subst hk
      simp only [pdPop, if_pos rfl]
      exact pdGet_eq_none_of_not_mem hnd.1
    · simp [pdPop, pdGet, hk, ih hnd.2]

lemma pdGet_some_mem {p : List (String × List Pkt)} {f : String} {v : List Pkt}
    (h : pdGet p f = some v) : f ∈ p.map Prod.fst := by
  induction p with
  | nil => cases h
  | cons q t ih =>
    obtain ⟨k, w⟩ := q
    by_cases hk : k = f
    · simp [hk]
    · simp only [pdGet, hk, if_false] at h
      simp [List.mem_cons, ih h]

lemma pdSet_keys_of_mem {p : List (String × List Pkt)} {f : String} (w : List Pkt)
    (h : f ∈ p.map Prod.fst) : (pdSet p f w).map Prod.fst = p.map Prod.fst := by
  induction p with
  | nil => simp at h
  | cons q t ih =>
    obtain ⟨k, v⟩ := q
    by_cases hk : k = f
    · simp [pdSet, hk]
    · simp only [List.map_cons, List.mem_cons] at h
      rcases h with h | h
      · exact absurd h.symm hk
      · simp [pdSet, hk, ih h]

lemma logFlows_append (l : List (String × String)) (e : String × String) :
    logFlows (l ++ [e]) = logFlows l ++ [e.1, e.2] := by
  induction l with
  | nil => rfl
  | cons x t ih => simp [logFlows] at ih ⊢; rw [ih]

lemma mem_logFlows {l : List (String × String)} {f : String} :
    f ∈ logFlows l ↔ ∃ e ∈ l, f = e.1 ∨ f = e.2 := by
  induction l with
  | nil => simp [logFlows]
  | cons x t ih =>
    simp only [logFlows, List.foldr] at ih ⊢
    simp only [List.mem_cons, ih]
    constructor
    · rintro (h | h | ⟨e, he, h⟩)
      · exact ⟨x, Or.inl rfl, Or.inl h⟩
      · exact ⟨x, Or.inl rfl, Or.inr h⟩
      · exact ⟨e, Or.inr he, h⟩
    · rintro ⟨e, he | he, h⟩
      · subst he
        rcases h with h | h
        · exact Or.inl h
        · exact Or.inr (Or.inl h)
      · exact Or.inr (Or.inr ⟨e, he, h⟩)

lemma sifGet_sifSet_cleared (s : List (String × SIF)) (f : String) :
    sifGet (sifSet s f SIF.cleared) f = SIF.cleared := by
  induction s with
  | nil => rfl
  | cons p t ih =>
    obtain ⟨k, w⟩ := p
    by_cases hk : k = f <;> simp [sifSet, sifGet, hk, ih]

lemma tryJoin_inv {if_name : String} {pd0 : List (String × List Pkt)}
    {sif0 : List (String × SIF)} {f1 : String} {st st' : JoinState}
    (keys : List String) (hinv : JInv if_name pd0 sif0 st)
    (hg : sifGet st.sif f1 = SIF.name if_name)
    (h : tryJoin f1 keys st = some st') : JInv if_name pd0 sif0 st' := by
  induction keys with
  | nil =>
    obtain rfl : st = st' := Option.some.inj h
    exact hinv
  | cons f2 rest ih =>
    by_cases hc : joinCond st.sif f1 f2 = true
    · simp only [tryJoin, hc, if_true] at h
      rcases hl1 : pdGet st.pd f1 with _ | l1 <;> rw [hl1] at h
      · exact Option.noConfusion h
      rcases hl2 : pdGet st.pd f2 with _ | l2 <;> rw [hl2] at h
      · exact Option.noConfusion h
      obtain rfl := (Option.some.inj h).symm
      simp only [joinCond, Bool.and_eq_true, decide_eq_true_eq, ne_eq,
        Bool.or_eq_true, beq_iff_eq] at hc
      have h1t : (sifGet st.sif f1).truthy = true := hc.1.1.1.1.1
      have h2t : (sifGet st.sif f2).truthy = true := hc.1.1.1.1.2
      have hne : f1 ≠ f2 := hc.1.1.1.2
      have h1mem : f1 ∉ logFlows st.log := by
        intro hmem
        rw [hinv.cleared f1 hmem] at h1t
        simp [SIF.truthy] at h1t
      have h2mem : f2 ∉ logFlows st.log := by
        intro hmem
        rw [hinv.cleared f2 hmem] at h2t
        simp [SIF.truthy] at h2t
      have hifn : sifGet sif0 f1 = SIF.name if_name := by
        rcases hinv.decay f1 with hd | hd
        · rw [← hd]; exact hg
        · rw [hd] at hg; exact SIF.noConfusion hg
      have hf1pop : pdGet (pdPop st.pd f2) f1 = some l1 := by
        rw [pdGet_pdPop_ne hne, hl1]
      have hkeys : ((pdSet (pdPop st.pd f2) f1
          (pySortPkts (l1 ++ l2))).map Prod.fst) = (pdPop st.pd f2).map Prod.fst :=
        pdSet_keys_of_mem _ (pdGet_some_mem hf1pop)
      refine ⟨?_, ?_, ?_, ?_, ?_, ?_, ?_⟩
      · show ((pdSet (pdPop st.pd f2) f1 _).map Prod.fst).Nodup
        rw [hkeys]
        exact hinv.pdnodup.sublist (pdPop_keys_sublist st.pd f2)
      · show (logFlows (st.log ++ [(f1, f2)])).Nodup
        rw [logFlows_append]
        rw [List.nodup_append]
        refine ⟨hinv.lognodup, by simp [hne], ?_⟩
        intro a ha
        simp only [List.mem_cons, List.mem_singleton, List.not_mem_nil, or_false]
        rintro (rfl | rfl)
        · exact h1mem ha
        · exact h2mem ha
      · intro f hf
        rw [logFlows_append] at hf
        rcases List.mem_append.mp hf with hf | hf
        · have hne1 : f ≠ f1 := fun hh => h1mem (hh ▸ hf)
          have hne2 : f ≠ f2 := fun hh => h2mem (hh ▸ hf)
          show sifGet (sifSet (sifSet st.sif f1 SIF.cleared) f2 SIF.cleared) f =
            SIF.cleared
          rw [sifGet_sifSet_ne _ hne2, sifGet_sifSet_ne _ hne1]
          exact hinv.cleared f hf
        · simp only [List.mem_cons, List.mem_singleton, List.not_mem_nil,
            or_false] at hf
          rcases hf with rfl | rfl
          · show sifGet (sifSet (sifSet st.sif f SIF.cleared) f2 SIF.cleared) f =
              SIF.cleared
            rw [sifGet_sifSet_ne _ hne]
            exact sifGet_sifSet_cleared _ _
          · exact sifGet_sifSet_cleared _ _
      · intro f
        by_cases hf2 : f = f2
        · subst hf2
          exact Or.inr (sifGet_sifSet_cleared _ _)
        · by_cases hf1 : f = f1
          · subst hf1
            refine Or.inr ?_
            show sifGet (sifSet (sifSet st.sif f SIF.cleared) f2 SIF.cleared) f =
              SIF.cleared
            rw [sifGet_sifSet_ne _ hf2]
            exact sifGet_sifSet_cleared _ _
          · show sifGet (sifSet (sifSet st.sif f1 SIF.cleared) f2 SIF.cleared) f =
              sifGet sif0 f ∨ _ = SIF.cleared
            rw [sifGet_sifSet_ne _ hf2, sifGet_sifSet_ne _ hf1]
            exact hinv.decay f
      · intro e he
        rcases List.mem_append.mp he with he | he
        · exact hinv.ifn1 e he
        · rw [List.mem_singleton] at he
          subst he
          exact hifn
      · intro f hf
        rw [logFlows_append, List.mem_append] at hf
        push_neg at hf
        have hne1 : f ≠ f1 := by
          intro hh; exact hf.2 (by simp [hh])
        have hne2 : f ≠ f2 := by
          intro hh; exact hf.2 (by simp [hh])
        show pdGet (pdSet (pdPop st.pd f2) f1 _) f = pdGet pd0 f
        rw [pdGet_pdSet_ne _ hne1, pdGet_pdPop_ne hne2]
        exact hinv.fresh f hf.1
      · intro e he
        rcases List.mem_append.mp he with he | he
        · obtain ⟨l1', l2', ha, hb, hc', hd⟩ := hinv.merged e he
          have he1 : e.1 ∈ logFlows st.log :=
            mem_logFlows.mpr ⟨e, he, Or.inl rfl⟩
          have he2 : e.2 ∈ logFlows st.log :=
            mem_logFlows.mpr ⟨e, he, Or.inr rfl⟩
          have h11 : e.1 ≠ f1 := fun hh => h1mem (hh ▸ he1)
          have h12 : e.1 ≠ f2 := fun hh => h2mem (hh ▸ he1)
          have h21 : e.2 ≠ f1 := fun hh => h1mem (hh ▸ he2)
          have h22 : e.2 ≠ f2 := fun hh => h2mem (hh ▸ he2)
          refine ⟨l1', l2', ha, hb, ?_, ?_⟩
          · show pdGet (pdSet (pdPop st.pd f2) f1 _) e.1 = _
            rw [pdGet_pdSet_ne _ h11, pdGet_pdPop_ne h12]
            exact hc'
          · show pdGet (pdSet (pdPop st.pd f2) f1 _) e.2 = none
            rw [pdGet_pdSet_ne _ h21, pdGet_pdPop_ne h22]
            exact hd
        · rw [List.mem_singleton] at he
          subst he
          refine ⟨l1, l2, ?_, ?_, ?_, ?_⟩
          · rw [← hinv.fresh f1 h1mem]; exact hl1
          · rw [← hinv.fresh f2 h2mem]; exact hl2
          · exact pdGet_pdSet_self _ _ _
          · show pdGet (pdSet (pdPop st.pd f2) f1 _) f2 = none
            rw [pdGet_pdSet_ne _ (fun hh => hne hh.symm)]
            exact pdGet_pdPop_self hinv.pdnodup
    · simp only [tryJoin, hc, if_false] at h
      exact ih h

lemma natJoinLoop_inv {if_name : String} {pd0 : List (String × List Pkt)}
    {sif0 : List (String × SIF)} (allKeys : List String) (l : List String)
    {st st' : JoinState} (hinv : JInv if_name pd0 sif0 st)
    (h : natJoinLoop if_name allKeys l st = some st') :
    JInv if_name pd0 sif0 st' := by
  induction l generalizing st with
  | nil =>
    obtain rfl : st = st' := Option.some.inj h
    exact hinv
  | cons f1 rest ih =>
    by_cases hg : sifGet st.sif f1 = SIF.name if_name
    · simp only [natJoinLoop, hg, if_pos] at h
      rcases htj : tryJoin f1 allKeys st with _ | st1 <;> rw [htj] at h
      · exact Option.noConfusion h
      · exact ih (tryJoin_inv allKeys hinv hg htj) h
    · simp only [natJoinLoop, hg, if_false] at h
      exact ih hinv h

lemma JInv_init (if_name : String) (pd : List (String × List Pkt))
    (hnd : (pd.map Prod.fst).Nodup) :
    JInv if_name pd (singleIfFlowsOf pd)
      { pd := pd, sif := singleIfFlowsOf pd, log := [] } :=
  ⟨hnd, List.nodup_nil, fun f hf => absurd hf (List.not_mem_nil f),
   fun _ => Or.inl rfl, fun e he => absurd he (List.not_mem_nil e),
   fun _ _ => rfl, fun e he => absurd he (List.not_mem_nil e)⟩

lemma natJoin_inv {if_name : String} {pd : List (String × List Pkt)}
    {st : JoinState} (hnd : (pd.map Prod.fst).Nodup)
    (hrun : natJoin if_name pd = some st) :
    JInv if_name pd (singleIfFlowsOf pd) st := by
  simp only [natJoin] at hrun
  exact natJoinLoop_inv _ _ (JInv_init if_name pd hnd) hrun

/-- C7 (amended): whenever the NAT-reunification step of `parse_flows_file`
merges two single-interface flows, the merged flow holds the concatenation
of the two original packet lists re-sorted by Python `list.sort()` —
lexicographic comparison of the string fields, not numeric timestamp
order — the second flow's key is removed from the map, and no flow
participates in more than one merge (the flows named across all log
entries are pairwise distinct). -/
theorem C7_theorem (if_name : String) (pd : List (String × List Pkt))
    (st : JoinState) (hnd : (pd.map Prod.fst).Nodup)
    (hrun : natJoin if_name pd = some st) :
    (logFlows st.log).Nodup ∧
    ∀ e ∈ st.log, ∃ l1 l2,
      pdGet pd e.1 = some l1 ∧ pdGet pd e.2 = some l2 ∧
      pdGet st.pd e.1 = some (pySortPkts (l1 ++ l2)) ∧ pdGet st.pd e.2 = none :=
  ⟨(natJoin_inv hnd hrun).lognodup, (natJoin_inv hnd hrun).merged⟩

theorem C7_witness :
    (c7pd.map Prod.fst).Nodup ∧ natJoin "cm" c7pd = some c7st ∧
    ((logFlows c7st.log).Nodup ∧
     ∀ e ∈ c7st.log, ∃ l1 l2,
       pdGet c7pd e.1 = some l1 ∧ pdGet c7pd e.2 = some l2 ∧
       pdGet c7st.pd e.1 = some (pySortPkts (l1 ++ l2)) ∧
       pdGet c7st.pd e.2 = none) :=
  ⟨by decide, by decide, C7_theorem "cm" c7pd c7st (by decide) (by decide)⟩

/-- C10: a NAT merge happens only when the first flow's sole observed
interface — its entry in the initial `singleIfFlows` census — equals the
interface name passed to `parse_flows_file`; consequently two
single-interface flows neither of which was observed on that interface
are never merged with each other. -/
theorem C10_theorem (if_name : String) (pd : List (String × List Pkt))
    (st : JoinState) (hnd : (pd.map Prod.fst).Nodup)
    (hrun : natJoin if_name pd = some st) :
    ∀ e ∈ st.log, sifGet (singleIfFlowsOf pd) e.1 = SIF.name if_name :=
  (natJoin_inv hnd hrun).ifn1

theorem C10_witness :
    (c10pd.map Prod.fst).Nodup ∧ natJoin "cm" c10pd = some c10st ∧
    ∀ e ∈ c10st.log, sifGet (singleIfFlowsOf c10pd) e.1 = SIF.name "cm" :=
  ⟨by decide, by decide, C10_theorem "cm" c10pd c10st (by decide) (by decide)⟩

/-! ### Lemmas for the merge stage -/

lemma pyInsert_perm {α : Type} (lt : α → α → Bool) (x : α) (l : List α) :
    (pyInsert lt x l).Perm (x :: l) := by
  induction l with
  | nil => exact List.Perm.refl _
  | cons y t ih =>
    by_cases hy : lt y x = true
    · simp only [pyInsert, hy, if_true]
      exact (ih.cons y).trans (List.Perm.swap x y t)
    · simp only [pyInsert, hy, if_false]
      exact List.Perm.refl _

lemma pySort_perm {α : Type} (lt : α → α → Bool) (l : List α) :
    (pySort lt l).Perm l := by
  induction l with
  | nil => exact List.Perm.refl _
  | cons x t ih =>
    exact (pyInsert_perm lt x (pySort lt t)).trans (ih.cons x)

lemma nfpAux_min0 (cs : List ℕ) (i j : ℕ) (h : cs ≠ []) :
    nfpAux min_pkts_per_flow i cs j = i + cs.length - 1 := by
  induction cs generalizing i j with
  | nil => exact absurd rfl h
  | cons c rest ih =>
    have hc : ¬ c < min_pkts_per_flow := by simp [min_pkts_per_flow]
    simp only [nfpAux, hc, if_false]
    rcases rest with _ | ⟨c', rest'⟩
    · simp [nfpAux]
    · rw [ih (i + 1) i (by simp)]
      simp only [List.length_cons]
      omega

lemma alGet_alPop_ne {κ α : Type} [DecidableEq κ] {p : List (κ × α)}
    {f g : κ} (h : g ≠ f) : alGet (alPop p f) g = alGet p g := by
  induction p with
  | nil => rfl
  | cons q t ih =>
    obtain ⟨k, v⟩ := q
    by_cases hk : k = f
    · subst hk
      have : ¬ k = g := fun hkg => h hkg.symm
      simp [alPop, alGet, this]
    · by_cases hg : k = g <;> simp [alPop, alGet, hk, hg, h, ih]

lemma alGet_eq_of_mem_nodup {κ α : Type} [DecidableEq κ]
    {p : List (κ × α)} {k : κ} {v : α} (hnd : (p.map Prod.fst).Nodup)
    (hmem : (k, v) ∈ p) : alGet p k = some v := by
  induction p with
  | nil => cases hmem
  | cons q t ih =>
    obtain ⟨a, b⟩ := q
    simp only [List.map_cons, List.nodup_cons] at hnd
    rcases List.mem_cons.mp hmem with hq | hq
    · injection hq with h1 h2
      subst h1; subst h2
      simp [alGet]
    · have hak : ¬ a = k := by
        intro hak
        subst hak
        exact hnd.1 (List.mem_map.mpr ⟨(a, v), hq, rfl⟩)
      simp [alGet, hak, ih hnd.2 hq]

lemma alSet_append_of_not_mem {κ α : Type} [DecidableEq κ]
    {p : List (κ × α)} {k : κ} (v : α) (h : k ∉ p.map Prod.fst) :
    alSet p k v = p ++ [(k, v)] := by
  induction p with
  | nil => rfl
  | cons q t ih =>
    obtain ⟨a, b⟩ := q
    simp only [List.map_cons, List.mem_cons] at h
    push_neg at h
    have hak : ¬ a = k := fun hh => h.1 hh.symm
    simp [alSet, hak, ih h.2]

lemma alPop_eq_filter {κ α : Type} [DecidableEq κ] {p : List (κ × α)}
    (hnd : (p.map Prod.fst).Nodup) (f : κ) :
    alPop p f = p.filter (fun e => decide (¬ e.1 = f)) := by
  induction p with
  | nil => rfl
  | cons q t ih =>
    obtain ⟨k, v⟩ := q
    simp only [List.map_cons, List.nodup_cons] at hnd
    by_cases hk : k = f
    · subst hk
      have h1 : alPop ((k, v) :: t) k = t := by simp [alPop]
      have h2 : List.filter (fun e => decide (¬ e.1 = k)) ((k, v) :: t) =
          List.filter (fun e => decide (¬ e.1 = k)) t := by
        simp [List.filter_cons]
      rw [h1, h2]
      refine (List.filter_eq_self.mpr ?_).symm
      intro e he
      simp only [decide_eq_true_eq]
      intro hek
      exact hnd.1 (List.mem_map.mpr ⟨e, he, hek⟩)
    · simp only [alPop, hk, if_false]
      rw [ih hnd.2]
      simp [List.filter_cons, hk]

lemma alPop_length {κ α : Type} [DecidableEq κ] {p : List (κ × α)}
    {f : κ} {v : α} (h : alGet p f = some v) :
    (alPop p f).length + 1 = p.length := by
  induction p with
  | nil => cases h
  | cons q t ih =>
    obtain ⟨k, w⟩ := q
    by_cases hk : k = f
    · simp [alPop, hk]
    · simp only [alGet, hk, if_false] at h
      simp [alPop, hk, ih h]

/-- The aggregation loop succeeds on a duplicate-free tail of the
ranking whose flows are all present, merges their packet counts into the
accumulator, and leaves exactly the non-merged flows in order. -/
lemma aggLoop_spec (l : List (String × ℕ)) (agg : FlowOut)
    (pd : List (String × FlowOut)) (hnd : (pd.map Prod.fst).Nodup)
    (hlnd : (l.map Prod.fst).Nodup)
    (hmem : ∀ q ∈ l, ∃ f, alGet pd q.1 = some f ∧ f.total = q.2) :
    ∃ a, aggLoop l agg pd =
        some (a, pd.filter (fun e => decide (e.1 ∉ l.map Prod.fst))) ∧
      a.total = agg.total + (l.map Prod.snd).sum ∧
      (pd.filter (fun e => decide (e.1 ∉ l.map Prod.fst))).length + l.length
        = pd.length := by
  induction l generalizing agg pd with
  | nil =>
    have hfil : pd.filter
        (fun e => decide (e.1 ∉ ([] : List (String × ℕ)).map Prod.fst)) = pd := by
      refine List.filter_eq_self.mpr ?_
      intro e _
      simp
    exact ⟨agg, by rw [hfil]; rfl, by simp, by rw [hfil]; simp⟩
  | cons q rest ih =>
    obtain ⟨f, hf, hft⟩ := hmem q (List.mem_cons_self q rest)
    simp only [List.map_cons, List.nodup_cons] at hlnd
    have hnd' : ((alPop pd q.1).map Prod.fst).Nodup := by
      rw [alPop_eq_filter hnd]
      exact hnd.sublist ((List.filter_sublist pd).map Prod.fst)
    have hmem' : ∀ q' ∈ rest,
        ∃ f', alGet (alPop pd q.1) q'.1 = some f' ∧ f'.total = q'.2 := by
      intro q' hq'
      obtain ⟨f', hf', hft'⟩ := hmem q' (List.mem_cons_of_mem q hq')
      have hne : q'.1 ≠ q.1 := by
        intro hh
        exact hlnd.1 (hh ▸ List.mem_map.mpr ⟨q', hq', rfl⟩)
      exact ⟨f', by rw [alGet_alPop_ne hne]; exact hf', hft'⟩
    obtain ⟨a, ha, hat, halen⟩ := ih (aggMerge agg f) (alPop pd q.1) hnd' hlnd.2 hmem'
    have hfil : (alPop pd q.1).filter
        (fun e => decide (e.1 ∉ rest.map Prod.fst)) =
        pd.filter (fun e => decide (e.1 ∉ (q :: rest).map Prod.fst)) := by
      rw [alPop_eq_filter hnd, List.filter_filter]
      refine List.filter_congr ?_
      intro e _
      by_cases h1 : e.1 = q.1 <;> by_cases h2 : e.1 ∈ rest.map Prod.fst <;>
        simp [h1, h2]
    refine ⟨a, ?_, ?_, ?_⟩
    · show aggLoop (q :: rest) agg pd = _
      simp only [aggLoop, hf]
      rw [ha, hfil]
    · simp only [aggMerge] at hat
      rw [hat, hft]
      simp only [List.map_cons, List.sum_cons]
      omega
    · rw [← hfil]
      have hpl := alPop_length hf
      simp only [List.length_cons]
      omega

/-- C9 counterexample: with 21 flows — all meeting the (zero)
minimum-packet threshold, counts strictly descending — the merge stage
keeps only the 19 highest-counted flows individually, not 20: the loop
variable `num_flow_plots` retains `min(20, len) - 1 = 19` after the
exhausted counting loop, and `sorted[19:]` is merged away, including
flow "s20", the 20th-highest. -/
theorem C9_counterexample :
    c9pd.length = 21 ∧
    (∀ q ∈ c9pd, min_pkts_per_flow ≤ q.2.total) ∧
    (mergeSmallFlows c9pd).map (fun r => r.map Prod.fst) =
      some ["s01", "s02", "s03", "s04", "s05", "s06", "s07", "s08", "s09",
            "s10", "s11", "s12", "s13", "s14", "s15", "s16", "s17", "s18",
            "s19", "other flows"] ∧
    ("s20" : String) ∉
      ["s01", "s02", "s03", "s04", "s05", "s06", "s07", "s08", "s09",
       "s10", "s11", "s12", "s13", "s14", "s15", "s16", "s17", "s18",
       "s19", "other flows"] ∧
    ((mergeSmallFlows c9pd).bind
        (fun r => alGet r "other flows")).map FlowOut.total = some 3 := by
  refine ⟨by decide, by decide, by decide, by decide, by decide⟩

/-- C9 (amended): with more than 20 flows in a direction (all meeting
the zero minimum-packet threshold) and no flow literally named
"other flows", exactly the 19 highest-counted flows — `sorted[:19]` of
the stable descending ranking — remain as individual entries (in their
original map order), every other flow is merged into a single synthetic
"other flows" entry appended last whose packet total is the sum of the
merged flows' totals, and the resulting map has 20 entries. -/
theorem C9_theorem (pd : List (String × FlowOut))
    (hnd : (pd.map Prod.fst).Nodup) (hlen : 20 < pd.length)
    (hother : "other flows" ∉ pd.map Prod.fst) :
    ∃ agg, mergeSmallFlows pd =
      some (pd.filter
          (fun e => decide (e.1 ∈ ((flowRank pd).take 19).map Prod.fst)) ++
        [("other flows", agg)]) ∧
      agg.total = (((flowRank pd).drop 19).map Prod.snd).sum ∧
      (pd.filter
          (fun e => decide (e.1 ∈ ((flowRank pd).take 19).map Prod.fst)) ++
        [("other flows", agg)]).length = 20 := by
  have hperm : (flowRank pd).Perm (pd.map (fun q => (q.1, q.2.total))) :=
    pySort_perm _ _
  have hklen : (flowRank pd).length = pd.length := by
    rw [hperm.length_eq, List.length_map]
  have hkeys : ((flowRank pd).map Prod.fst).Perm (pd.map Prod.fst) := by
    have h := hperm.map Prod.fst
    simpa [List.map_map, Function.comp] using h
  have hknd : ((flowRank pd).map Prod.fst).Nodup := hkeys.nodup_iff.mpr hnd
  have hmin : min max_flow_plots (flowRank pd).length = 20 := by
    rw [hklen]
    simp only [max_flow_plots]
    omega
  have htl : ((flowRank pd).take 20).length = 20 := by
    rw [List.length_take, hklen]
    simp only [max_flow_plots] at hmin ⊢
    omega
  have hcs : (((flowRank pd).take 20).map Prod.snd) ≠ [] := by
    intro h
    have h2 := congrArg List.length h
    rw [List.length_map, htl] at h2
    exact absurd h2 (by decide)
  have hnum : numFlowPlots (flowRank pd) = 19 := by
    rw [numFlowPlots, hmin, nfpAux_min0 _ _ _ hcs, List.length_map, htl]
  have hguard : numFlowPlots (flowRank pd) + 1 < (flowRank pd).length := by
    rw [hnum, hklen]
    omega
  have hmd : ((flowRank pd).drop 19).map Prod.fst =
      ((flowRank pd).map Prod.fst).drop 19 := by
    rw [List.map_drop]
  have hlnd : (((flowRank pd).drop 19).map Prod.fst).Nodup := by
    rw [hmd]
    exact hknd.sublist (List.drop_sublist 19 _)
  have hmem : ∀ q ∈ (flowRank pd).drop 19,
      ∃ f, alGet pd q.1 = some f ∧ f.total = q.2 := by
    intro q hq
    have hq3 : q ∈ pd.map (fun e => (e.1, e.2.total)) :=
      hperm.mem_iff.mp (List.mem_of_mem_drop hq)
    obtain ⟨e, he, heq⟩ := List.mem_map.mp hq3
    obtain ⟨qk, qc⟩ := q
    injection heq with he1 he2
    refine ⟨e.2, ?_, he2⟩
    have hep : (e.1, e.2) ∈ pd := by simpa using he
    rw [he1] at hep
    exact alGet_eq_of_mem_nodup hnd hep
  obtain ⟨a, ha, hat, halen⟩ :=
    aggLoop_spec ((flowRank pd).drop 19) aggInit pd hnd hlnd hmem
  have hrun0 : mergeSmallFlows pd =
      (aggLoop ((flowRank pd).drop (numFlowPlots (flowRank pd))) aggInit pd).map
        (fun r => alSet r.2 "other flows" r.1) := by
    simp only [mergeSmallFlows]
    rw [if_pos hguard]
  rw [hnum] at hrun0
  rw [ha] at hrun0
  simp only [Option.map_some'] at hrun0
  have hsub : "other flows" ∉ (pd.filter
      (fun e => decide (e.1 ∉ ((flowRank pd).drop 19).map Prod.fst))).map
        Prod.fst := by
    intro hmm
    obtain ⟨e, he, hee⟩ := List.mem_map.mp hmm
    exact hother (List.mem_map.mpr ⟨e, List.mem_of_mem_filter he, hee⟩)
  rw [alSet_append_of_not_mem a hsub] at hrun0
  have hconv : pd.filter
      (fun e => decide (e.1 ∉ ((flowRank pd).drop 19).map Prod.fst)) =
      pd.filter
      (fun e => decide (e.1 ∈ ((flowRank pd).take 19).map Prod.fst)) := by
    refine List.filter_congr ?_
    intro e he
    have hekey : e.1 ∈ (flowRank pd).map Prod.fst :=
      hkeys.mem_iff.mpr (List.mem_map.mpr ⟨e, he, rfl⟩)
    have hsplit : (flowRank pd).map Prod.fst =
        ((flowRank pd).take 19).map Prod.fst ++
          ((flowRank pd).drop 19).map Prod.fst := by
      rw [← List.map_append, List.take_append_drop]
    have hknd2 := hknd
    rw [hsplit] at hekey hknd2
    rw [List.nodup_append] at hknd2
    rw [List.mem_append] at hekey
    simp only [decide_eq_decide]
    constructor
    · intro hnd2
      rcases hekey with h | h
      · exact h
      · exact absurd h hnd2
    · intro ht hd
      exact hknd2.2.2 ht hd
  rw [hconv] at hrun0
  refine ⟨a, hrun0, ?_, ?_⟩
  · rw [hat]
    simp [aggInit]
  · rw [← hconv, List.length_append]
    have hdl : ((flowRank pd).drop 19).length = pd.length - 19 := by
      rw [List.length_drop, hklen]
    simp only [List.length_singleton]
    omega

theorem C9_witness :
    ((c9pd.map Prod.fst).Nodup ∧ 20 < c9pd.length ∧
      "other flows" ∉ c9pd.map Prod.fst) ∧
    ∃ agg, mergeSmallFlows c9pd =
      some (c9pd.filter
          (fun e => decide (e.1 ∈ ((flowRank c9pd).take 19).map Prod.fst)) ++
        [("other flows", agg)]) ∧
      agg.total = (((flowRank c9pd).drop 19).map Prod.snd).sum ∧
      (c9pd.filter
          (fun e => decide (e.1 ∈ ((flowRank c9pd).take 19).map Prod.fst)) ++
        [("other flows", agg)]).length = 20 :=
  ⟨⟨by decide, by decide, by decide⟩,
   C9_theorem c9pd (by decide) (by decide) (by decide)⟩

lemma c8cond_iff (x : List NpVal) :
    (npAnyInf x || npAnyNan x || npAllZero x) = true ↔
      ((∃ v ∈ x, v = NpVal.inf ∨ v = NpVal.ninf ∨ v = NpVal.nan) ∨
        ∀ v ∈ x, v = NpVal.val 0) := by
  simp only [npAnyInf, npAnyNan, npAllZero, Bool.or_eq_true,
    List.any_eq_true, List.all_eq_true, decide_eq_true_eq, beq_iff_eq]
  constructor
  · rintro ((⟨v, hv, h⟩ | ⟨v, hv, h⟩) | h)
    · exact Or.inl ⟨v, hv, h.imp id Or.inl⟩
    · exact Or.inl ⟨v, hv, Or.inr (Or.inr h)⟩
    · exact Or.inr h
  · rintro (⟨v, hv, (h | h | h)⟩ | h)
    · exact Or.inl (Or.inl ⟨v, hv, Or.inl h⟩)
    · exact Or.inl (Or.inl ⟨v, hv, Or.inr h⟩)
    · exact Or.inl (Or.inr ⟨v, hv, h⟩)
    · exact Or.inr h

/-- C8: `confidence_interval` returns [NaN, NaN, NaN] exactly when the
input contains a non-finite value or all values are zero; otherwise,
with a standard error of exactly zero it collapses to [mean, mean,
mean], and otherwise it returns the mean with the two bounds of the 95%
normal-approximation confidence interval (abstracted as `ci`). -/
theorem C8_theorem (ci : List ℚ → ℚ × ℚ) (x : List NpVal) :
    (confidence_interval ci x = [NpVal.nan, NpVal.nan, NpVal.nan] ↔
      ((∃ v ∈ x, v = NpVal.inf ∨ v = NpVal.ninf ∨ v = NpVal.nan) ∨
        ∀ v ∈ x, v = NpVal.val 0)) ∧
    ((¬ ((∃ v ∈ x, v = NpVal.inf ∨ v = NpVal.ninf ∨ v = NpVal.nan) ∨
        ∀ v ∈ x, v = NpVal.val 0)) →
      semIsZero (x.map NpVal.toQ) = true →
      confidence_interval ci x =
        [NpVal.val (npMean (x.map NpVal.toQ)),
         NpVal.val (npMean (x.map NpVal.toQ)),
         NpVal.val (npMean (x.map NpVal.toQ))]) ∧
    ((¬ ((∃ v ∈ x, v = NpVal.inf ∨ v = NpVal.ninf ∨ v = NpVal.nan) ∨
        ∀ v ∈ x, v = NpVal.val 0)) →
      semIsZero (x.map NpVal.toQ) = false →
      confidence_interval ci x =
        [NpVal.val (npMean (x.map NpVal.toQ)),
         NpVal.val (ci (x.map NpVal.toQ)).1,
         NpVal.val (ci (x.map NpVal.toQ)).2]) := by
  by_cases hc : (npAnyInf x || npAnyNan x || npAllZero x) = true
  · refine ⟨?_, ?_, ?_⟩
    · simp only [confidence_interval, if_pos hc]
      exact iff_of_true trivial ((c8cond_iff x).mp hc)
    · intro hnc _
      exact absurd ((c8cond_iff x).mp hc) hnc
    · intro hnc _
      exact absurd ((c8cond_iff x).mp hc) hnc
  · refine ⟨?_, ?_, ?_⟩
    · constructor
      · intro hres
        simp only [confidence_interval, if_neg hc] at hres
        by_cases hs : semIsZero (x.map NpVal.toQ) = true
        · rw [if_pos hs] at hres
          injection hres with h1 _
          exact NpVal.noConfusion h1
        · rw [if_neg hs] at hres
          injection hres with h1 _
          exact NpVal.noConfusion h1
      · intro hp
        exact absurd ((c8cond_iff x).mpr hp) hc
    · intro _ hs
      simp only [confidence_interval, if_neg hc, if_pos hs]
    · intro _ hs
      simp only [confidence_interval, if_neg hc]
      rw [if_neg]
      rw [hs]
      simp

theorem C8_witness :
    (¬ ((∃ v ∈ c8x, v = NpVal.inf ∨ v = NpVal.ninf ∨ v = NpVal.nan) ∨
        ∀ v ∈ c8x, v = NpVal.val 0)) ∧
    semIsZero (c8x.map NpVal.toQ) = true ∧
    confidence_interval c8ci c8x =
      [NpVal.val (npMean (c8x.map NpVal.toQ)),
       NpVal.val (npMean (c8x.map NpVal.toQ)),
       NpVal.val (npMean (c8x.map NpVal.toQ))] :=
  ⟨by decide, by decide, (C8_theorem c8ci c8x).2.1 (by decide) (by decide)⟩

end LatMon

